import Mathlib

/-!
Verification of the `SiftEntityMatcherSerializer` component
(`src/classes/SiftEntityMatcherSerializer.class.ts`,
`src/types/sift.types.ts`): a shallow embedding of its data model and
operations, followed by theorems about serialization, deserialization,
deep merging, and the tree-editing API.
-/

namespace SiftSpec

/-- A JavaScript value as the serializer manipulates it: raw Sift condition
objects, condition values, and deserialized results. Object fields are kept
in insertion order (JavaScript preserves insertion order for the
non-integer string keys used throughout this component). Numbers are
modelled as integers, which covers every value the component's logic
inspects. -/
inductive QueryVal : Type where
  | num (n : Int)
  | str (s : String)
  | bool (b : Bool)
  | null
  | undef
  | obj (fields : List (String × QueryVal))
  | arr (items : List QueryVal)

/-- An AST node, `SiftSerializerASTNode` from `sift.types.ts`: the three
variants `condition` / `logical` / `embedded`, with operators kept as the
strings the source classifies. -/
inductive Node : Type where
  | cond (id : Nat) (fieldPath : List String) (operator : String) (value : QueryVal)
  | logical (id : Nat) (operator : String) (children : List Node)
  | embedded (id : Nat) (fieldPath : List String) (operator : String) (subtree : List Node)

/-- Embeds `_isLogicalOperator`. -/
def isLogicalOperator (key : String) : Bool :=
  ["$and", "$or", "$not"].contains key

/-- Embeds `_isEmbeddedOperator`. -/
def isEmbeddedOperator (key : String) : Bool :=
  ["$some", "$every", "$none"].contains key

/-- Embeds `_isComparisonOperator`. -/
def isComparisonOperator (key : String) : Bool :=
  ["$eq", "$in", "$nin", "$lt", "$gt", "$lte", "$gte", "$ne",
   "$ilike", "$all", "$exists", "$elemMatch"].contains key

/-- The `operatorFound` flag of `_serializeObject`: set exactly when some key
of the field's value is an embedded, comparison, or logical operator. -/
def anyOperatorKey (fields : List (String × QueryVal)) : Bool :=
  fields.any fun kv =>
    isEmbeddedOperator kv.1 || isComparisonOperator kv.1 || isLogicalOperator kv.1

mutual

/-- Embeds `_serializeObject`, threading the instance's `_idCounter`
explicitly. The array branch flattens element results; the object branch is
`serializeEntries` below. Primitive / null / undefined inputs have no
enumerable own keys, so the `for..in` loop produces nothing. -/
def serializeObject : QueryVal → List String → Nat → List Node × Nat
  | .arr items, currentPath, c => serializeList items currentPath c
  | .obj fields, currentPath, c => serializeEntries fields currentPath c
  | _, _, c => ([], c)

/-- The array branch of `_serializeObject`: serialize each element against
the same path and concatenate. -/
def serializeList : List QueryVal → List String → Nat → List Node × Nat
  | [], _, c => ([], c)
  | item :: rest, currentPath, c =>
    let p := serializeObject item currentPath c
    let q := serializeList rest currentPath p.2
    (p.1 ++ q.1, q.2)

/-- The `for (const key in obj)` loop of `_serializeObject`. Note that in the
source every node id is generated when the node literal is built, i.e. after
its children have been serialized. A `$and`/`$or` whose value is not an
array makes the source's `for..of` throw; a string value iterates its
characters, each of which serializes to nothing. The nested-field fallback
recurses into the value (for a plain object this is exactly
`serializeEntries` on its fields). -/
def serializeEntries : List (String × QueryVal) → List String → Nat → List Node × Nat
  | [], _, c => ([], c)
  | (key, value) :: rest, currentPath, c =>
    let p :=
      if isLogicalOperator key then
        if key == "$not" then
          let ch := serializeObject value currentPath c
          ([Node.logical ch.2 "$not" ch.1], ch.2 + 1)
        else
          match value with
          | .arr items =>
            let ch := serializeList items currentPath c
            ([Node.logical ch.2 key ch.1], ch.2 + 1)
          | .str _ => ([Node.logical c key []], c + 1)
          | _ => ([], c)
      else
        match value with
        | .obj fs =>
          if anyOperatorKey fs then serializeOps fs key currentPath c
          else serializeEntries fs (currentPath ++ [key]) c
        | .arr items => serializeList items (currentPath ++ [key]) c
        | _ => ([], c)
    let q := serializeEntries rest currentPath p.2
    (p.1 ++ q.1, q.2)

/-- The `for (const op in fieldValue)` scan of `_serializeObject` for a field
key whose value is a plain object: embedded operators restart serialization
of their body with an empty path; comparison operators yield a condition
node; logical operators recurse with the extended path; unrecognized keys
are silently skipped. -/
def serializeOps : List (String × QueryVal) → String → List String → Nat → List Node × Nat
  | [], _, _, c => ([], c)
  | (op, w) :: rest, key, currentPath, c =>
    let p :=
      if isEmbeddedOperator op then
        let sub := serializeObject w [] c
        ([Node.embedded sub.2 (currentPath ++ [key]) op sub.1], sub.2 + 1)
      else if isComparisonOperator op then
        ([Node.cond c (currentPath ++ [key]) op w], c + 1)
      else if isLogicalOperator op then
        let ch := serializeObject w (currentPath ++ [key]) c
        ([Node.logical ch.2 op ch.1], ch.2 + 1)
      else ([], c)
    let q := serializeOps rest key currentPath p.2
    (p.1 ++ q.1, q.2)

end

/-- Embeds `_isNotEmpty`. -/
def isNotEmpty : QueryVal → Bool
  | .null => false
  | .undef => false
  | .arr items => !items.isEmpty
  | .obj fields => !fields.isEmpty
  | _ => true

/-- Embeds `_buildNestedObject`: nest a condition under a field path,
returning the condition itself for an empty path. -/
def buildNestedObject : List String → QueryVal → QueryVal
  | [], condition => condition
  | key :: rest, condition => .obj [(key, buildNestedObject rest condition)]

/-- JavaScript property read `target[key]`, yielding `undefined` when the
key is absent or the target has no such property. -/
def getProp (target : QueryVal) (key : String) : QueryVal :=
  match target with
  | .obj fields =>
    match fields.find? (fun kv => kv.1 == key) with
    | some kv => kv.2
    | none => .undef
  | .arr items =>
    match key.toNat? with
    | some i => items.getD i .undef
    | none => .undef
  | _ => (.undef)

/-- JavaScript property write on an object's field list: overwrite in place
(keeping the key's position) or append a new key at the end. -/
def setPair : List (String × QueryVal) → String → QueryVal → List (String × QueryVal)
  | [], key, v => [(key, v)]
  | (k, w) :: rest, key, v =>
    if k == key then (k, v) :: rest else (k, w) :: setPair rest key v

/-- JavaScript property write `target[key] = v`. Writes past an array's end
or under a non-index key of an array do not occur in this component (the
merge guard only recurses into object-typed values produced by
deserialization); primitives silently drop writes. -/
def setProp (target : QueryVal) (key : String) (v : QueryVal) : QueryVal :=
  match target with
  | .obj fields => .obj (setPair fields key v)
  | .arr items =>
    match key.toNat? with
    | some i =>
      if i < items.length then .arr (items.set i v)
      else if i == items.length then .arr (items ++ [v])
      else .arr items
    | none => .arr items
  | _ => target

/-- JavaScript truthiness of a value. -/
def jsTruthy : QueryVal → Bool
  | .null => false
  | .undef => false
  | .bool b => b
  | .num n => n != 0
  | .str s => s != ""
  | .obj _ => true
  | .arr _ => true

/-- JavaScript `typeof x === 'object'`: true for objects, arrays, and null. -/
def isObjType : QueryVal → Bool
  | .obj _ => true
  | .arr _ => true
  | .null => true
  | _ => false

mutual

/-- Embeds `_deepMerge`: for each own enumerable key of the source, merge
recursively when the existing value is truthy and object-typed and the
incoming value is object-typed, otherwise overwrite with the incoming value.
A null / undefined / primitive source contributes no keys and leaves the
target unchanged (strings cannot reach `_deepMerge` because of the
`typeof === 'object'` guard at every call site). -/
def deepMerge : QueryVal → QueryVal → QueryVal
  | target, .obj fields => mergePairs target fields
  | target, .arr items => mergeIdx target 0 items
  | target, _ => target

/-- The `for (const key in source)` loop of `_deepMerge` over an object
source. -/
def mergePairs : QueryVal → List (String × QueryVal) → QueryVal
  | target, [] => target
  | target, (key, v) :: rest =>
    let old := getProp target key
    let merged :=
      if jsTruthy old && isObjType old && isObjType v then deepMerge old v else v
    mergePairs (setProp target key merged) rest

/-- The `for (const key in source)` loop of `_deepMerge` over an array
source, whose own enumerable keys are its indices. -/
def mergeIdx : QueryVal → Nat → List QueryVal → QueryVal
  | target, _, [] => target
  | target, i, v :: rest =>
    let old := getProp target (toString i)
    let merged :=
      if jsTruthy old && isObjType old && isObjType v then deepMerge old v else v
    mergeIdx (setProp target (toString i) merged) (i + 1) rest

end

/-- Embeds `_mergeObjects`: left fold of `_deepMerge` starting from `{}`. -/
def mergeObjects (objects : List QueryVal) : QueryVal :=
  objects.foldl deepMerge (.obj [])

mutual

/-- Embeds `_deserializeNode`. -/
def deserializeNode : Node → QueryVal
  | .cond _ fieldPath op value => buildNestedObject fieldPath (.obj [(op, value)])
  | .logical _ op children =>
    if op == "$not" then
      let childObj := mergeObjects ((deserializeList children).filter isNotEmpty)
      if isNotEmpty childObj then .obj [("$not", childObj)] else .obj []
    else
      let childrenArr := (deserializeList children).filter isNotEmpty
      if !childrenArr.isEmpty then .obj [(op, .arr childrenArr)] else .obj []
  | .embedded _ fieldPath op subtree =>
    let inner := mergeObjects ((deserializeList subtree).filter isNotEmpty)
    if isNotEmpty inner then buildNestedObject fieldPath (.obj [(op, inner)]) else .obj []

/-- Maps `_deserializeNode` over a node list (the `map` inside
`_deserializeNodes` and inside the `$and`/`$or` branch). -/
def deserializeList : List Node → List QueryVal
  | [] => []
  | n :: rest => deserializeNode n :: deserializeList rest

end

/-- Embeds `_deserializeNodes` on a node array: deserialize each node, drop
empty results, deep-merge the rest. -/
def deserializeNodes (nodes : List Node) : QueryVal :=
  mergeObjects ((deserializeList nodes).filter isNotEmpty)

/-- Embeds the public `deserialize()`: null (here `none`) when the merged
result is empty. -/
def deserialize (tree : List Node) : Option QueryVal :=
  let d := deserializeNodes tree
  if isNotEmpty d then some d else none

/-- Embeds the public `serialize(query)`: serialization always starts with
an empty path; the id counter is the instance's current `_idCounter`. -/
def serialize (query : QueryVal) (c : Nat) : List Node × Nat :=
  serializeObject query [] c

/-- Value-level deep equality (key order included); used as the leaf case of
the order-insensitive comparison below. -/
def isPrimitiveValue : QueryVal → Bool
  | .num _ => true
  | .str _ => true
  | .bool _ => true
  | .null => true
  | .undef => true
  | .obj _ => false
  | .arr _ => false

/-- Every key of `qs` also occurs among the keys of `ps`. -/
def keysIncluded (qs ps : List (String × QueryVal)) : Bool :=
  qs.all fun kv => ps.any fun kv' => kv'.1 == kv.1

mutual

/-- Deep equality up to key ordering, the comparison the round-trip claim
uses: objects must have the same key sets with pointwise equivalent values,
arrays must agree pointwise in order (array order is meaningful for
`$and`/`$or`), leaves must be equal. -/
def equivUpToKeys : QueryVal → QueryVal → Bool
  | .obj ps, .obj qs => equivFields ps qs && keysIncluded qs ps
  | .arr xs, .arr ys => equivItems xs ys
  | .num a, .num b => a == b
  | .str a, .str b => a == b
  | .bool a, .bool b => a == b
  | .null, .null => true
  | .undef, .undef => true
  | _, _ => false

/-- Each field of the left object matches the correspondingly-keyed field of
the right object. -/
def equivFields : List (String × QueryVal) → List (String × QueryVal) → Bool
  | [], _ => true
  | (k, v) :: rest, qs =>
    (match qs.find? (fun kv => kv.1 == k) with
     | some kv => equivUpToKeys v kv.2
     | none => false) && equivFields rest qs

/-- Pointwise equivalence of array items. -/
def equivItems : List QueryVal → List QueryVal → Bool
  | [], [] => true
  | x :: xs, y :: ys => equivUpToKeys x y && equivItems xs ys
  | _, _ => false

end

/-- A key that the source classifies as some operator. -/
def isOperatorKey (key : String) : Bool :=
  isLogicalOperator key || isComparisonOperator key || isEmbeddedOperator key

/-- No key occurs twice, as in any JavaScript object literal. -/
def keysNodup : List (String × QueryVal) → Bool
  | [] => true
  | (k, _) :: rest => !(rest.any fun kv => kv.1 == k) && keysNodup rest

/-- A scalar per the operator/value table: number, string, boolean or null. -/
def isScalarValue : QueryVal → Bool
  | .num _ => true
  | .str _ => true
  | .bool _ => true
  | .null => true
  | _ => false

/-- Number or string, for the ordering operators and `$elemMatch`. -/
def isNumOrStr : QueryVal → Bool
  | .num _ => true
  | .str _ => true
  | _ => false

/-- A homogeneous array of strings or of numbers, for `$in`/`$nin`/`$all`. -/
def isHomogeneousArray : QueryVal → Bool
  | .arr items => (items.all fun v => match v with | .num _ => true | _ => false)
      || (items.all fun v => match v with | .str _ => true | _ => false)
  | _ => false

/-- The operator → value-type contract of the spec (§3 table). -/
def validCompValue (op : String) (w : QueryVal) : Bool :=
  if op == "$eq" || op == "$ne" then isScalarValue w
  else if op == "$lt" || op == "$gt" || op == "$lte" || op == "$gte"
          || op == "$elemMatch" then isNumOrStr w
  else if op == "$in" || op == "$nin" || op == "$all" then isHomogeneousArray w
  else if op == "$ilike" then (match w with | .str _ => true | _ => false)
  else if op == "$exists" then (match w with | .bool _ => true | _ => false)
  else false

mutual

/-- Modelled from the spec (§6 grammar, §8 round-trip precondition): a
condition object of the documented grammar with no semantically-empty
branches. Keys are logical operators or field names; `$and`/`$or` carry
nonempty arrays of condition objects; `$not` carries a condition object; a
field name carries a nonempty mapping of comparison operators with values
per the operator table, a nonempty mapping of embedded operators over
sub-filters, or a nonempty nested field mapping; no duplicate keys. -/
def specGrammar : QueryVal → Bool
  | .obj fields => !fields.isEmpty && keysNodup fields && specEntries fields
  | _ => false

/-- Each top-level key of a condition object conforms to the grammar. -/
def specEntries : List (String × QueryVal) → Bool
  | [] => true
  | (key, value) :: rest =>
    (if key == "$and" || key == "$or" then
       match value with
       | .arr items => !items.isEmpty && specList items
       | _ => false
     else if key == "$not" then specGrammar value
     else !isOperatorKey key && specFieldValue value) && specEntries rest

/-- Each element of a `$and`/`$or` array is a condition object. -/
def specList : List QueryVal → Bool
  | [] => true
  | q :: rest => specGrammar q && specList rest

/-- The documented forms of a field name's value. -/
def specFieldValue : QueryVal → Bool
  | .obj fields => !fields.isEmpty && keysNodup fields &&
      (specCompEntries fields || specEmbEntries fields || specNestedEntries fields)
  | _ => false

/-- A mapping of comparison operators with table-conformant values. -/
def specCompEntries : List (String × QueryVal) → Bool
  | [] => true
  | (op, w) :: rest => isComparisonOperator op && validCompValue op w && specCompEntries rest

/-- A mapping of embedded operators over sub-filter condition objects. -/
def specEmbEntries : List (String × QueryVal) → Bool
  | [] => true
  | (op, w) :: rest => isEmbeddedOperator op && specGrammar w && specEmbEntries rest

/-- A nested field mapping for dotted paths. -/
def specNestedEntries : List (String × QueryVal) → Bool
  | [] => true
  | (key, v) :: rest => !isOperatorKey key && specFieldValue v && specNestedEntries rest

end

/-- C1 (counterexample): the condition object
`{ "$and": [ { "a": { "$eq": 1 }, "b": { "$eq": 2 } } ] }` is built from the
documented grammar with no semantically-empty branches, yet its round trip
splits the single two-key `$and` element into two one-key elements, which is
not deeply equal to the original even up to key ordering. -/
theorem roundtrip_splits_multikey_and_element :
    specGrammar (.obj [("$and", .arr [.obj [("a", .obj [("$eq", .num 1)]),
                                            ("b", .obj [("$eq", .num 2)])]])]) = true
    ∧ deserialize (serialize (.obj [("$and", .arr [.obj [("a", .obj [("$eq", .num 1)]),
                                            ("b", .obj [("$eq", .num 2)])]])]) 0).1
        = some (.obj [("$and", .arr [.obj [("a", .obj [("$eq", .num 1)])],
                                     .obj [("b", .obj [("$eq", .num 2)])]])])
    ∧ equivUpToKeys (.obj [("$and", .arr [.obj [("a", .obj [("$eq", .num 1)])],
                                          .obj [("b", .obj [("$eq", .num 2)])]])])
        (.obj [("$and", .arr [.obj [("a", .obj [("$eq", .num 1)]),
                                    ("b", .obj [("$eq", .num 2)])]])]) = false :=
  ⟨rfl, rfl, rfl⟩

/-- C2: serializing `{ "tags": { "$some": { "$and": [ { "x": { "$eq": 1 } } ] } } }`
produces an embedded node at path `["tags"]` whose subtree holds a logical
`$and` node with one condition child at path `["x"]` (not `["tags","x"]`);
and in general the body of an embedded operator is serialized against the
empty path, whatever the outer path was. -/
theorem embedded_path_reset :
    (serialize (.obj [("tags", .obj [("$some",
        .obj [("$and", .arr [.obj [("x", .obj [("$eq", .num 1)])]])])])]) 0).1 =
      [Node.embedded 2 ["tags"] "$some"
        [Node.logical 1 "$and" [Node.cond 0 ["x"] "$eq" (.num 1)]]]
    ∧ ∀ (op : String) (w : QueryVal) (key : String) (p : List String) (c : Nat),
        isEmbeddedOperator op = true →
        (serializeOps [(op, w)] key p c).1 =
          [Node.embedded (serializeObject w [] c).2 (p ++ [key]) op
            (serializeObject w [] c).1] := by
  refine ⟨rfl, ?_⟩
  intro op w key p c h
  simp [serializeOps, h]

/-- Witness for the universally quantified part of `embedded_path_reset` at a
concrete embedded operator and body. -/
theorem embedded_path_reset_witness :
    (serializeOps [("$some", QueryVal.obj [("x", .obj [("$eq", .num 1)])])]
        "tags" ["outer"] 5).1 =
      [Node.embedded (serializeObject (.obj [("x", .obj [("$eq", .num 1)])]) [] 5).2
        (["outer"] ++ ["tags"]) "$some"
        (serializeObject (.obj [("x", .obj [("$eq", .num 1)])]) [] 5).1] :=
  embedded_path_reset.2 "$some" (.obj [("x", .obj [("$eq", .num 1)])]) "tags" ["outer"] 5 rfl

/-- C3: serializing `{ "a": { "b": { "$eq": 1 } }, "c": { "$eq": 2 } }` yields
exactly two condition nodes at paths `["a","b"]` and `["c"]`, and
deserializing that two-node tree deep-merges the per-node objects back into
the original nested object (no `$and` wrapper). -/
theorem deep_merge_composition_example :
    serialize (.obj [("a", .obj [("b", .obj [("$eq", .num 1)])]),
                     ("c", .obj [("$eq", .num 2)])]) 0 =
      ([Node.cond 0 ["a", "b"] "$eq" (.num 1), Node.cond 1 ["c"] "$eq" (.num 2)], 2)
    ∧ deserialize [Node.cond 0 ["a", "b"] "$eq" (.num 1),
                   Node.cond 1 ["c"] "$eq" (.num 2)] =
      some (.obj [("a", .obj [("b", .obj [("$eq", .num 1)])]),
                  ("c", .obj [("$eq", .num 2)])]) :=
  ⟨rfl, rfl⟩

/-- C10: a field key (any key the source does not classify as a logical
operator) whose value is a primitive, null or undefined contributes no AST
node and no id: removing it from the input leaves serialization unchanged;
in particular `serialize({ "a": 5 })` yields the empty tree and a subsequent
`deserialize()` returns null. -/
theorem primitive_field_value_dropped :
    (∀ (ps1 ps2 : List (String × QueryVal)) (key : String) (v : QueryVal)
        (p : List String) (c : Nat),
        isLogicalOperator key = false → isPrimitiveValue v = true →
        serializeEntries (ps1 ++ (key, v) :: ps2) p c = serializeEntries (ps1 ++ ps2) p c)
    ∧ serialize (.obj [("a", .num 5)]) 0 = ([], 0)
    ∧ deserialize (serialize (.obj [("a", .num 5)]) 0).1 = none := by
  refine ⟨?_, rfl, rfl⟩
  intro ps1 ps2 key v p c hk hv
  induction ps1 generalizing c with
  | nil =>
    cases v with
    | num n => simp [serializeEntries, hk]
    | str s => simp [serializeEntries, hk]
    | bool b => simp [serializeEntries, hk]
    | null => simp [serializeEntries, hk]
    | undef => simp [serializeEntries, hk]
    | obj fs => exact absurd hv (by simp [isPrimitiveValue])
    | arr items => exact absurd hv (by simp [isPrimitiveValue])
  | cons hd tl ih =>
    obtain ⟨k', v'⟩ := hd
    simp only [List.cons_append]
    rw [serializeEntries.eq_def]
    conv_rhs => rw [serializeEntries.eq_def]
    dsimp only
    rw [ih]

/-- Witness for the universally quantified part of
`primitive_field_value_dropped` at a concrete object. -/
theorem primitive_field_value_dropped_witness :
    serializeEntries ([("z", QueryVal.obj [("$eq", .num 3)])] ++ ("a", QueryVal.num 5) :: [])
        ["p"] 0 =
      serializeEntries ([("z", QueryVal.obj [("$eq", .num 3)])] ++ []) ["p"] 0 :=
  primitive_field_value_dropped.1 [("z", QueryVal.obj [("$eq", .num 3)])] []
    "a" (QueryVal.num 5) ["p"] 0 rfl rfl

/-- The unique id of a node. -/
def nodeId : Node → Nat
  | .cond i _ _ _ => i
  | .logical i _ _ => i
  | .embedded i _ _ _ => i

/-- Embeds `_findNodeById`: depth-first pre-order search — each node is
checked before its `children`/`subtree`, which are searched before the
remaining siblings. -/
def findNodeInList : List Node → Nat → Option Node
  | [], _ => none
  | n :: rest, i =>
    if nodeId n == i then some n
    else
      match n with
      | .logical _ _ children =>
        (match findNodeInList children i with
         | some found => some found
         | none => findNodeInList rest i)
      | .embedded _ _ _ subtree =>
        (match findNodeInList subtree i with
         | some found => some found
         | none => findNodeInList rest i)
      | .cond _ _ _ _ => findNodeInList rest i

/-- Embeds `_removeNodeFromList`, returning the `boolean` result together
with the list after the in-place `splice`: the first node matching the id
in pre-order is dropped together with its whole subtree. -/
def removeNodeFromList : List Node → Nat → Bool × List Node
  | [], _ => (false, [])
  | n :: rest, i =>
    if nodeId n == i then (true, rest)
    else
      match n with
      | .logical i' op children =>
        let r := removeNodeFromList children i
        if r.1 then (true, .logical i' op r.2 :: rest)
        else
          let q := removeNodeFromList rest i
          (q.1, .logical i' op children :: q.2)
      | .embedded i' fp op subtree =>
        let r := removeNodeFromList subtree i
        if r.1 then (true, .embedded i' fp op r.2 :: rest)
        else
          let q := removeNodeFromList rest i
          (q.1, .embedded i' fp op subtree :: q.2)
      | .cond i' fp op v =>
        let q := removeNodeFromList rest i
        (q.1, .cond i' fp op v :: q.2)

/-- Applies a function to the first node (in the pre-order of
`_findNodeById`) carrying the given id, leaving everything else in place.
The source mutates the object returned by `_findNodeById`; since that is
the first pre-order match, in-place mutation is exactly this replacement. -/
def mapFirstById : List Node → Nat → (Node → Node) → List Node
  | [], _, _ => []
  | n :: rest, i, f =>
    if nodeId n == i then f n :: rest
    else
      match n with
      | .logical i' op children =>
        if (findNodeInList children i).isSome then
          .logical i' op (mapFirstById children i f) :: rest
        else .logical i' op children :: mapFirstById rest i f
      | .embedded i' fp op subtree =>
        if (findNodeInList subtree i).isSome then
          .embedded i' fp op (mapFirstById subtree i f) :: rest
        else .embedded i' fp op subtree :: mapFirstById rest i f
      | .cond i' fp op v => .cond i' fp op v :: mapFirstById rest i f

/-- The `children.push(node)` / `subtree.push(node)` of `_addNode`. -/
def appendChild (parent child : Node) : Node :=
  match parent with
  | .logical i op children => .logical i op (children ++ [child])
  | .embedded i fp op subtree => .embedded i fp op (subtree ++ [child])
  | n => n

/-- The error kinds of §7: the distinct `Error`s thrown by `_addNode` and
`updateConditionNode`. -/
inductive SerErr : Type where
  | parentNotFound
  | invalidParentType
  | nodeNotFound
  | invalidNodeType

/-- The mutable state of a `SiftEntityMatcherSerializer` instance: `_tree`
and `_idCounter`. -/
structure SiftState : Type where
  tree : List Node
  idCounter : Nat

/-- Embeds `_addNode` at the tree level (the id counter is untouched here):
without a parent id the node goes to the root; otherwise the parent is
looked up, a missing parent or a `condition` parent raises, and a container
parent gets the node appended to its `children`/`subtree`. -/
def addNode (tree : List Node) (node : Node) (parentId : Option Nat) :
    Except SerErr (List Node) :=
  match parentId with
  | none => .ok (tree ++ [node])
  | some pid =>
    match findNodeInList tree pid with
    | none => .error .parentNotFound
    | some parent =>
      match parent with
      | .cond _ _ _ _ => .error .invalidParentType
      | _ => .ok (mapFirstById tree pid (fun p => appendChild p node))

/-- Embeds `addConditionNode`. `_generateId()` runs while the node literal
is built, so the counter is already incremented when `_addNode` throws. -/
def addConditionNode (s : SiftState) (fieldPath : List String) (operator : String)
    (value : QueryVal) (parentId : Option Nat) : Except SerErr Nat × SiftState :=
  let newId := s.idCounter
  let node := Node.cond newId fieldPath operator value
  match addNode s.tree node parentId with
  | .ok tree' => (.ok newId, ⟨tree', newId + 1⟩)
  | .error e => (.error e, ⟨s.tree, newId + 1⟩)

/-- Embeds `addLogicalNode` (fresh logical node with empty children). -/
def addLogicalNode (s : SiftState) (operator : String) (parentId : Option Nat) :
    Except SerErr Nat × SiftState :=
  let newId := s.idCounter
  let node := Node.logical newId operator []
  match addNode s.tree node parentId with
  | .ok tree' => (.ok newId, ⟨tree', newId + 1⟩)
  | .error e => (.error e, ⟨s.tree, newId + 1⟩)

/-- Embeds `addEmbeddedNode` (fresh embedded node with empty subtree). -/
def addEmbeddedNode (s : SiftState) (fieldPath : List String) (operator : String)
    (parentId : Option Nat) : Except SerErr Nat × SiftState :=
  let newId := s.idCounter
  let node := Node.embedded newId fieldPath operator []
  match addNode s.tree node parentId with
  | .ok tree' => (.ok newId, ⟨tree', newId + 1⟩)
  | .error e => (.error e, ⟨s.tree, newId + 1⟩)

/-- Replaces operator and value of a condition node, the in-place mutation
of `updateConditionNode`; non-condition nodes are never passed to it. -/
def setOpValue (operator : String) (value : QueryVal) : Node → Node
  | .cond i fp _ _ => .cond i fp operator value
  | n => n

/-- Embeds `updateConditionNode`: find by id; missing id or a non-condition
node raises; otherwise operator and value are replaced in place and `true`
is returned. -/
def updateConditionNode (s : SiftState) (i : Nat) (operator : String)
    (value : QueryVal) : Except SerErr Bool × SiftState :=
  match findNodeInList s.tree i with
  | none => (.error .nodeNotFound, s)
  | some n =>
    match n with
    | .cond _ _ _ _ =>
      (.ok true, ⟨mapFirstById s.tree i (setOpValue operator value), s.idCounter⟩)
    | _ => (.error .invalidNodeType, s)

/-- Embeds the public `remove`. -/
def removeById (s : SiftState) (i : Nat) : Bool × SiftState :=
  let r := removeNodeFromList s.tree i
  (r.1, ⟨r.2, s.idCounter⟩)

/-- Embeds `clear`: the tree is reset, the id counter is not. -/
def clear (s : SiftState) : SiftState :=
  ⟨[], s.idCounter⟩

mutual

/-- All ids in a node, itself included, in pre-order. -/
def nodeIds : Node → List Nat
  | .cond i _ _ _ => [i]
  | .logical i _ children => i :: treeIdsAux children
  | .embedded i _ _ subtree => i :: treeIdsAux subtree

/-- All ids in a node list, in pre-order. -/
def treeIdsAux : List Node → List Nat
  | [] => []
  | n :: rest => nodeIds n ++ treeIdsAux rest

end

/-- The sequences of §8's "any sequence of `add*`, `remove` and `clear`
operations". -/
inductive EditOp : Type where
  | addCond (fieldPath : List String) (operator : String) (value : QueryVal)
      (parentId : Option Nat)
  | addLogical (operator : String) (parentId : Option Nat)
  | addEmbedded (fieldPath : List String) (operator : String) (parentId : Option Nat)
  | removeOp (i : Nat)
  | clearOp

/-- Runs one operation against the instance state (on a thrown error the
state is whatever the method left behind when it threw). -/
def applyOp (s : SiftState) : EditOp → SiftState
  | .addCond fp op v pid => (addConditionNode s fp op v pid).2
  | .addLogical op pid => (addLogicalNode s op pid).2
  | .addEmbedded fp op pid => (addEmbeddedNode s fp op pid).2
  | .removeOp i => (removeById s i).2
  | .clearOp => clear s

/-- Runs a sequence of operations. -/
def runOps (s : SiftState) (ops : List EditOp) : SiftState :=
  ops.foldl applyOp s

/-- The state of a freshly constructed instance with no initial query. -/
def startState : SiftState :=
  ⟨[], 0⟩

theorem treeIdsAux_append (a b : List Node) :
    treeIdsAux (a ++ b) = treeIdsAux a ++ treeIdsAux b := by
  induction a with
  | nil => simp [treeIdsAux]
  | cons n rest ih => simp [treeIdsAux, ih]

theorem nodeId_mem_nodeIds (n : Node) : nodeId n ∈ nodeIds n := by
  cases n <;> simp [nodeId, nodeIds]

theorem findNodeInList_nil (i : Nat) : findNodeInList [] i = none := by
  rw [findNodeInList.eq_def]

theorem findNodeInList_cond (a : Nat) (fp : List String) (op : String) (v : QueryVal)
    (rest : List Node) (i : Nat) :
    findNodeInList (.cond a fp op v :: rest) i =
      if a == i then some (.cond a fp op v) else findNodeInList rest i := by
  rw [findNodeInList.eq_def]
  rfl

theorem findNodeInList_logical (a : Nat) (op : String) (cs rest : List Node) (i : Nat) :
    findNodeInList (.logical a op cs :: rest) i =
      if a == i then some (.logical a op cs)
      else
        match findNodeInList cs i with
        | some found => some found
        | none => findNodeInList rest i := by
  rw [findNodeInList.eq_def]
  rfl

theorem findNodeInList_embedded (a : Nat) (fp : List String) (op : String)
    (cs rest : List Node) (i : Nat) :
    findNodeInList (.embedded a fp op cs :: rest) i =
      if a == i then some (.embedded a fp op cs)
      else
        match findNodeInList cs i with
        | some found => some found
        | none => findNodeInList rest i := by
  rw [findNodeInList.eq_def]
  rfl

theorem find_none_iff (t : List Node) (i : Nat) :
    findNodeInList t i = none ↔ i ∉ treeIdsAux t := by
  induction t, i using findNodeInList.induct with
  | case1 i => simp [findNodeInList_nil, treeIdsAux]
  | case2 n rest i h =>
    have heq : nodeId n = i := by simpa using h
    cases n with
    | cond a fp op v =>
      simp only [nodeId] at heq
      subst heq
      simp [findNodeInList_cond, treeIdsAux, nodeIds]
    | logical a op cs =>
      simp only [nodeId] at heq
      subst heq
      simp [findNodeInList_logical, treeIdsAux, nodeIds]
    | embedded a fp op cs =>
      simp only [nodeId] at heq
      subst heq
      simp [findNodeInList_embedded, treeIdsAux, nodeIds]
  | case3 rest i a op cs found hf h ihc =>
    have hc : i ∈ treeIdsAux cs := by
      by_contra hmem
      rw [ihc.mpr hmem] at hf
      cases hf
    simp only [nodeId] at h
    simp [findNodeInList_logical, h, hf, treeIdsAux, nodeIds, hc]
  | case4 rest i a op cs hf h ihc ihr =>
    have hc : i ∉ treeIdsAux cs := ihc.mp hf
    simp only [nodeId] at h
    have hid : ¬ a = i := by simpa using h
    have hid' : ¬ i = a := fun hcon => hid hcon.symm
    simp [findNodeInList_logical, h, hf, treeIdsAux, nodeIds, ihr, hc, hid']
  | case5 rest i a fp op cs found hf h ihc =>
    have hc : i ∈ treeIdsAux cs := by
      by_contra hmem
      rw [ihc.mpr hmem] at hf
      cases hf
    simp only [nodeId] at h
    simp [findNodeInList_embedded, h, hf, treeIdsAux, nodeIds, hc]
  | case6 rest i a fp op cs hf h ihc ihr =>
    have hc : i ∉ treeIdsAux cs := ihc.mp hf
    simp only [nodeId] at h
    have hid : ¬ a = i := by simpa using h
    have hid' : ¬ i = a := fun hcon => hid hcon.symm
    simp [findNodeInList_embedded, h, hf, treeIdsAux, nodeIds, ihr, hc, hid']
  | case7 rest i a fp op v h ihr =>
    simp only [nodeId] at h
    have hid : ¬ a = i := by simpa using h
    have hid' : ¬ i = a := fun hcon => hid hcon.symm
    simp [findNodeInList_cond, h, treeIdsAux, nodeIds, ihr, hid']

theorem removeNodeFromList_nil (i : Nat) : removeNodeFromList [] i = (false, []) := by
  rw [removeNodeFromList.eq_def]

theorem removeNodeFromList_cond (a : Nat) (fp : List String) (op : String) (v : QueryVal)
    (rest : List Node) (i : Nat) :
    removeNodeFromList (.cond a fp op v :: rest) i =
      if a == i then (true, rest)
      else ((removeNodeFromList rest i).1,
            .cond a fp op v :: (removeNodeFromList rest i).2) := by
  rw [removeNodeFromList.eq_def]
  rfl

theorem removeNodeFromList_logical (a : Nat) (op : String) (cs rest : List Node) (i : Nat) :
    removeNodeFromList (.logical a op cs :: rest) i =
      if a == i then (true, rest)
      else if (removeNodeFromList cs i).1 then
        (true, .logical a op (removeNodeFromList cs i).2 :: rest)
      else ((removeNodeFromList rest i).1,
            .logical a op cs :: (removeNodeFromList rest i).2) := by
  rw [removeNodeFromList.eq_def]
  rfl

theorem removeNodeFromList_embedded (a : Nat) (fp : List String) (op : String)
    (cs rest : List Node) (i : Nat) :
    removeNodeFromList (.embedded a fp op cs :: rest) i =
      if a == i then (true, rest)
      else if (removeNodeFromList cs i).1 then
        (true, .embedded a fp op (removeNodeFromList cs i).2 :: rest)
      else ((removeNodeFromList rest i).1,
            .embedded a fp op cs :: (removeNodeFromList rest i).2) := by
  rw [removeNodeFromList.eq_def]
  rfl

theorem mapFirstById_nil (i : Nat) (f : Node → Node) : mapFirstById [] i f = [] := by
  rw [mapFirstById.eq_def]

theorem mapFirstById_cond (a : Nat) (fp : List String) (op : String) (v : QueryVal)
    (rest : List Node) (i : Nat) (f : Node → Node) :
    mapFirstById (.cond a fp op v :: rest) i f =
      if a == i then f (.cond a fp op v) :: rest
      else .cond a fp op v :: mapFirstById rest i f := by
  rw [mapFirstById.eq_def]
  rfl

theorem mapFirstById_logical (a : Nat) (op : String) (cs rest : List Node) (i : Nat)
    (f : Node → Node) :
    mapFirstById (.logical a op cs :: rest) i f =
      if a == i then f (.logical a op cs) :: rest
      else if (findNodeInList cs i).isSome then .logical a op (mapFirstById cs i f) :: rest
      else .logical a op cs :: mapFirstById rest i f := by
  rw [mapFirstById.eq_def]
  rfl

theorem mapFirstById_embedded (a : Nat) (fp : List String) (op : String)
    (cs rest : List Node) (i : Nat) (f : Node → Node) :
    mapFirstById (.embedded a fp op cs :: rest) i f =
      if a == i then f (.embedded a fp op cs) :: rest
      else if (findNodeInList cs i).isSome then .embedded a fp op (mapFirstById cs i f) :: rest
      else .embedded a fp op cs :: mapFirstById rest i f := by
  rw [mapFirstById.eq_def]
  rfl

theorem find_nodeId : ∀ (t : List Node) (i : Nat) (p : Node),
    findNodeInList t i = some p → nodeId p = i := by
  intro t i
  induction t, i using findNodeInList.induct with
  | case1 i => intro p hp; simp [findNodeInList_nil] at hp
  | case2 n rest i h =>
    intro p hp
    have heq : nodeId n = i := by simpa using h
    cases n with
    | cond a fp op v =>
      rw [findNodeInList_cond] at hp
      simp only [nodeId] at heq
      simp [heq] at hp
      rw [← hp]
      simp [nodeId]
    | logical a op cs =>
      rw [findNodeInList_logical] at hp
      simp only [nodeId] at heq
      simp [heq] at hp
      rw [← hp]
      simp [nodeId]
    | embedded a fp op cs =>
      rw [findNodeInList_embedded] at hp
      simp only [nodeId] at heq
      simp [heq] at hp
      rw [← hp]
      simp [nodeId]
  | case3 rest i a op cs found hf h ihc =>
    intro p hp
    simp only [nodeId] at h
    rw [findNodeInList_logical] at hp
    simp [h, hf] at hp
    exact ihc p (hp ▸ hf)
  | case4 rest i a op cs hf h ihc ihr =>
    intro p hp
    simp only [nodeId] at h
    rw [findNodeInList_logical] at hp
    simp [h, hf] at hp
    exact ihr p hp
  | case5 rest i a fp op cs found hf h ihc =>
    intro p hp
    simp only [nodeId] at h
    rw [findNodeInList_embedded] at hp
    simp [h, hf] at hp
    exact ihc p (hp ▸ hf)
  | case6 rest i a fp op cs hf h ihc ihr =>
    intro p hp
    simp only [nodeId] at h
    rw [findNodeInList_embedded] at hp
    simp [h, hf] at hp
    exact ihr p hp
  | case7 rest i a fp op v h ihr =>
    intro p hp
    simp only [nodeId] at h
    rw [findNodeInList_cond] at hp
    simp [h] at hp
    exact ihr p hp

theorem remove_not_found : ∀ (t : List Node) (i : Nat),
    findNodeInList t i = none → removeNodeFromList t i = (false, t) := by
  intro t i
  induction t, i using findNodeInList.induct with
  | case1 i => intro _; simp [removeNodeFromList_nil]
  | case2 n rest i h =>
    intro hp
    exfalso
    have heq : nodeId n = i := by simpa using h
    cases n with
    | cond a fp op v =>
      rw [findNodeInList_cond] at hp
      simp only [nodeId] at heq
      simp [heq] at hp
    | logical a op cs =>
      rw [findNodeInList_logical] at hp
      simp only [nodeId] at heq
      simp [heq] at hp
    | embedded a fp op cs =>
      rw [findNodeInList_embedded] at hp
      simp only [nodeId] at heq
      simp [heq] at hp
  | case3 rest i a op cs found hf h ihc =>
    intro hp
    simp only [nodeId] at h
    rw [findNodeInList_logical] at hp
    simp [h, hf] at hp
  | case4 rest i a op cs hf h ihc ihr =>
    intro hp
    simp only [nodeId] at h
    rw [findNodeInList_logical] at hp
    simp only [h, if_false, hf] at hp
    rw [removeNodeFromList_logical]
    simp [h, (ihc hf), (ihr hp)]
  | case5 rest i a fp op cs found hf h ihc =>
    intro hp
    simp only [nodeId] at h
    rw [findNodeInList_embedded] at hp
    simp [h, hf] at hp
  | case6 rest i a fp op cs hf h ihc ihr =>
    intro hp
    simp only [nodeId] at h
    rw [findNodeInList_embedded] at hp
    simp only [h, if_false, hf] at hp
    rw [removeNodeFromList_embedded]
    simp [h, (ihc hf), (ihr hp)]
  | case7 rest i a fp op v h ihr =>
    intro hp
    simp only [nodeId] at h
    rw [findNodeInList_cond] at hp
    simp only [h, if_false] at hp
    rw [removeNodeFromList_cond]
    simp [h, (ihr hp)]

theorem remove_spec : ∀ (t : List Node) (i : Nat) (p : Node),
    findNodeInList t i = some p →
    (removeNodeFromList t i).1 = true
    ∧ ∃ A B, treeIdsAux t = A ++ (nodeIds p ++ B)
        ∧ treeIdsAux (removeNodeFromList t i).2 = A ++ B := by
  intro t i
  induction t, i using findNodeInList.induct with
  | case1 i => intro p hp; simp [findNodeInList_nil] at hp
  | case2 n rest i h =>
    intro p hp
    have heq : nodeId n = i := by simpa using h
    cases n with
    | cond a fp op v =>
      simp only [nodeId] at heq
      subst heq
      rw [findNodeInList_cond] at hp
      simp at hp
      subst hp
      have hrem : removeNodeFromList (Node.cond a fp op v :: rest) a = (true, rest) := by
        rw [removeNodeFromList_cond]
        simp
      rw [hrem]
      exact ⟨rfl, [], treeIdsAux rest, by simp [treeIdsAux], by simp⟩
    | logical a op cs =>
      simp only [nodeId] at heq
      subst heq
      rw [findNodeInList_logical] at hp
      simp at hp
      subst hp
      have hrem : removeNodeFromList (Node.logical a op cs :: rest) a = (true, rest) := by
        rw [removeNodeFromList_logical]
        simp
      rw [hrem]
      exact ⟨rfl, [], treeIdsAux rest, by simp [treeIdsAux], by simp⟩
    | embedded a fp op cs =>
      simp only [nodeId] at heq
      subst heq
      rw [findNodeInList_embedded] at hp
      simp at hp
      subst hp
      have hrem : removeNodeFromList (Node.embedded a fp op cs :: rest) a = (true, rest) := by
        rw [removeNodeFromList_embedded]
        simp
      rw [hrem]
      exact ⟨rfl, [], treeIdsAux rest, by simp [treeIdsAux], by simp⟩
  | case3 rest i a op cs found hf h ihc =>
    intro p hp
    simp only [nodeId] at h
    rw [findNodeInList_logical] at hp
    simp [h, hf] at hp
    subst hp
    obtain ⟨hr1, A, B, hids, hids'⟩ := ihc found hf
    rw [removeNodeFromList_logical]
    simp only [h, if_false, hr1, if_true]
    refine ⟨rfl, a :: A, B ++ treeIdsAux rest, ?_, ?_⟩
    · simp [treeIdsAux, nodeIds, hids]
    · simp [treeIdsAux, nodeIds, hids']
  | case4 rest i a op cs hf h ihc ihr =>
    intro p hp
    simp only [nodeId] at h
    rw [findNodeInList_logical] at hp
    simp only [h, if_false, hf] at hp
    obtain ⟨hr1, A, B, hids, hids'⟩ := ihr p hp
    have hcs : removeNodeFromList cs i = (false, cs) := remove_not_found cs i hf
    rw [removeNodeFromList_logical]
    simp only [h, if_false, hcs, if_true]
    refine ⟨hr1, (a :: treeIdsAux cs) ++ A, B, ?_, ?_⟩
    · simp [treeIdsAux, nodeIds, hids]
    · simp [treeIdsAux, nodeIds, hids']
  | case5 rest i a fp op cs found hf h ihc =>
    intro p hp
    simp only [nodeId] at h
    rw [findNodeInList_embedded] at hp
    simp [h, hf] at hp
    subst hp
    obtain ⟨hr1, A, B, hids, hids'⟩ := ihc found hf
    rw [removeNodeFromList_embedded]
    simp only [h, if_false, hr1, if_true]
    refine ⟨rfl, a :: A, B ++ treeIdsAux rest, ?_, ?_⟩
    · simp [treeIdsAux, nodeIds, hids]
    · simp [treeIdsAux, nodeIds, hids']
  | case6 rest i a fp op cs hf h ihc ihr =>
    intro p hp
    simp only [nodeId] at h
    rw [findNodeInList_embedded] at hp
    simp only [h, if_false, hf] at hp
    obtain ⟨hr1, A, B, hids, hids'⟩ := ihr p hp
    have hcs : removeNodeFromList cs i = (false, cs) := remove_not_found cs i hf
    rw [removeNodeFromList_embedded]
    simp only [h, if_false, hcs, if_true]
    refine ⟨hr1, (a :: treeIdsAux cs) ++ A, B, ?_, ?_⟩
    · simp [treeIdsAux, nodeIds, hids]
    · simp [treeIdsAux, nodeIds, hids']
  | case7 rest i a fp op v h ihr =>
    intro p hp
    simp only [nodeId] at h
    rw [findNodeInList_cond] at hp
    simp only [h, if_false] at hp
    obtain ⟨hr1, A, B, hids, hids'⟩ := ihr p hp
    rw [removeNodeFromList_cond]
    simp only [h, if_false]
    refine ⟨hr1, (a :: []) ++ A, B, ?_, ?_⟩
    · simp [treeIdsAux, nodeIds, hids]
    · simp [treeIdsAux, nodeIds, hids']

theorem mapFirst_spec : ∀ (t : List Node) (i : Nat) (f : Node → Node) (p : Node),
    findNodeInList t i = some p →
    ∃ A B, treeIdsAux t = A ++ (nodeIds p ++ B)
      ∧ treeIdsAux (mapFirstById t i f) = A ++ (nodeIds (f p) ++ B) := by
  intro t i f
  induction t, i using findNodeInList.induct with
  | case1 i => intro p hp; simp [findNodeInList_nil] at hp
  | case2 n rest i h =>
    intro p hp
    have heq : nodeId n = i := by simpa using h
    cases n with
    | cond a fp op v =>
      simp only [nodeId] at heq
      subst heq
      rw [findNodeInList_cond] at hp
      simp at hp
      subst hp
      rw [mapFirstById_cond]
      simp
      exact ⟨[], treeIdsAux rest, by simp [treeIdsAux], by simp [treeIdsAux]⟩
    | logical a op cs =>
      simp only [nodeId] at heq
      subst heq
      rw [findNodeInList_logical] at hp
      simp at hp
      subst hp
      rw [mapFirstById_logical]
      simp
      exact ⟨[], treeIdsAux rest, by simp [treeIdsAux], by simp [treeIdsAux]⟩
    | embedded a fp op cs =>
      simp only [nodeId] at heq
      subst heq
      rw [findNodeInList_embedded] at hp
      simp at hp
      subst hp
      rw [mapFirstById_embedded]
      simp
      exact ⟨[], treeIdsAux rest, by simp [treeIdsAux], by simp [treeIdsAux]⟩
  | case3 rest i a op cs found hf h ihc =>
    intro p hp
    simp only [nodeId] at h
    rw [findNodeInList_logical] at hp
    simp [h, hf] at hp
    subst hp
    obtain ⟨A, B, hids, hids'⟩ := ihc found hf
    rw [mapFirstById_logical]
    simp only [h, if_false, hf, Option.isSome_some, if_true]
    exact ⟨a :: A, B ++ treeIdsAux rest,
      by simp [treeIdsAux, nodeIds, hids],
      by simp [treeIdsAux, nodeIds, hids']⟩
  | case4 rest i a op cs hf h ihc ihr =>
    intro p hp
    simp only [nodeId] at h
    rw [findNodeInList_logical] at hp
    simp only [h, if_false, hf] at hp
    obtain ⟨A, B, hids, hids'⟩ := ihr p hp
    rw [mapFirstById_logical]
    simp only [h, if_false, hf, Option.isSome_none]
    exact ⟨(a :: treeIdsAux cs) ++ A, B,
      by simp [treeIdsAux, nodeIds, hids],
      by simp [treeIdsAux, nodeIds, hids']⟩
  | case5 rest i a fp op cs found hf h ihc =>
    intro p hp
    simp only [nodeId] at h
    rw [findNodeInList_embedded] at hp
    simp [h, hf] at hp
    subst hp
    obtain ⟨A, B, hids, hids'⟩ := ihc found hf
    rw [mapFirstById_embedded]
    simp only [h, if_false, hf, Option.isSome_some, if_true]
    exact ⟨a :: A, B ++ treeIdsAux rest,
      by simp [treeIdsAux, nodeIds, hids],
      by simp [treeIdsAux, nodeIds, hids']⟩
  | case6 rest i a fp op cs hf h ihc ihr =>
    intro p hp
    simp only [nodeId] at h
    rw [findNodeInList_embedded] at hp
    simp only [h, if_false, hf] at hp
    obtain ⟨A, B, hids, hids'⟩ := ihr p hp
    rw [mapFirstById_embedded]
    simp only [h, if_false, hf, Option.isSome_none]
    exact ⟨(a :: treeIdsAux cs) ++ A, B,
      by simp [treeIdsAux, nodeIds, hids],
      by simp [treeIdsAux, nodeIds, hids']⟩
  | case7 rest i a fp op v h ihr =>
    intro p hp
    simp only [nodeId] at h
    rw [findNodeInList_cond] at hp
    simp only [h, if_false] at hp
    obtain ⟨A, B, hids, hids'⟩ := ihr p hp
    rw [mapFirstById_cond]
    simp only [h, if_false]
    exact ⟨(a :: []) ++ A, B,
      by simp [treeIdsAux, nodeIds, hids],
      by simp [treeIdsAux, nodeIds, hids']⟩

theorem find_mapFirst_self : ∀ (t : List Node) (i : Nat) (f : Node → Node) (p : Node),
    findNodeInList t i = some p → nodeId (f p) = nodeId p →
    findNodeInList (mapFirstById t i f) i = some (f p) := by
  intro t i f
  induction t, i using findNodeInList.induct with
  | case1 i => intro p hp _; simp [findNodeInList_nil] at hp
  | case2 n rest i h =>
    intro p hp hid
    have heq : nodeId n = i := by simpa using h
    cases n with
    | cond a fp op v =>
      simp only [nodeId] at heq
      subst heq
      rw [findNodeInList_cond] at hp
      simp at hp
      subst hp
      rw [mapFirstById_cond]
      simp only [beq_self_eq_true, if_true]
      cases hfp : f (Node.cond a fp op v) with
      | cond b fp' op' v' =>
        rw [hfp] at hid
        simp only [nodeId] at hid
        rw [findNodeInList_cond]
        simp [hid]
      | logical b op' cs' =>
        rw [hfp] at hid
        simp only [nodeId] at hid
        rw [findNodeInList_logical]
        simp [hid]
      | embedded b fp' op' cs' =>
        rw [hfp] at hid
        simp only [nodeId] at hid
        rw [findNodeInList_embedded]
        simp [hid]
    | logical a op cs =>
      simp only [nodeId] at heq
      subst heq
      rw [findNodeInList_logical] at hp
      simp at hp
      subst hp
      rw [mapFirstById_logical]
      simp only [beq_self_eq_true, if_true]
      cases hfp : f (Node.logical a op cs) with
      | cond b fp' op' v' =>
        rw [hfp] at hid
        simp only [nodeId] at hid
        rw [findNodeInList_cond]
        simp [hid]
      | logical b op' cs' =>
        rw [hfp] at hid
        simp only [nodeId] at hid
        rw [findNodeInList_logical]
        simp [hid]
      | embedded b fp' op' cs' =>
        rw [hfp] at hid
        simp only [nodeId] at hid
        rw [findNodeInList_embedded]
        simp [hid]
    | embedded a fp op cs =>
      simp only [nodeId] at heq
      subst heq
      rw [findNodeInList_embedded] at hp
      simp at hp
      subst hp
      rw [mapFirstById_embedded]
      simp only [beq_self_eq_true, if_true]
      cases hfp : f (Node.embedded a fp op cs) with
      | cond b fp' op' v' =>
        rw [hfp] at hid
        simp only [nodeId] at hid
        rw [findNodeInList_cond]
        simp [hid]
      | logical b op' cs' =>
        rw [hfp] at hid
        simp only [nodeId] at hid
        rw [findNodeInList_logical]
        simp [hid]
      | embedded b fp' op' cs' =>
        rw [hfp] at hid
        simp only [nodeId] at hid
        rw [findNodeInList_embedded]
        simp [hid]
  | case3 rest i a op cs found hf h ihc =>
    intro p hp hid
    have hb : (a == i) = false := by simpa [nodeId] using h
    rw [findNodeInList_logical] at hp
    simp [hb, hf] at hp
    subst hp
    rw [mapFirstById_logical]
    simp only [hb, Bool.false_eq_true, if_false, hf, Option.isSome_some, if_true]
    rw [findNodeInList_logical]
    simp [hb, ihc found hf hid]
  | case4 rest i a op cs hf h ihc ihr =>
    intro p hp hid
    have hb : (a == i) = false := by simpa [nodeId] using h
    rw [findNodeInList_logical] at hp
    simp [hb, hf] at hp
    rw [mapFirstById_logical]
    simp only [hb, Bool.false_eq_true, if_false, hf, Option.isSome_none]
    rw [findNodeInList_logical]
    simp [hb, hf, ihr p hp hid]
  | case5 rest i a fp op cs found hf h ihc =>
    intro p hp hid
    have hb : (a == i) = false := by simpa [nodeId] using h
    rw [findNodeInList_embedded] at hp
    simp [hb, hf] at hp
    subst hp
    rw [mapFirstById_embedded]
    simp only [hb, Bool.false_eq_true, if_false, hf, Option.isSome_some, if_true]
    rw [findNodeInList_embedded]
    simp [hb, ihc found hf hid]
  | case6 rest i a fp op cs hf h ihc ihr =>
    intro p hp hid
    have hb : (a == i) = false := by simpa [nodeId] using h
    rw [findNodeInList_embedded] at hp
    simp [hb, hf] at hp
    rw [mapFirstById_embedded]
    simp only [hb, Bool.false_eq_true, if_false, hf, Option.isSome_none]
    rw [findNodeInList_embedded]
    simp [hb, hf, ihr p hp hid]
  | case7 rest i a fp op v h ihr =>
    intro p hp hid
    have hb : (a == i) = false := by simpa [nodeId] using h
    rw [findNodeInList_cond] at hp
    simp [hb] at hp
    rw [mapFirstById_cond]
    simp only [hb, Bool.false_eq_true, if_false]
    rw [findNodeInList_cond]
    simp [hb, ihr p hp hid]

/-- A node with its recursive children stripped: the per-node data (id,
type, field path, operator, value) that `updateConditionNode` must leave
untouched on every node other than the target. -/
def shallowNode : Node → Node
  | .cond i fp op v => .cond i fp op v
  | .logical i op _ => .logical i op []
  | .embedded i fp op _ => .embedded i fp op []

theorem find_map_setOp_other (op : String) (v : QueryVal) :
    ∀ (t : List Node) (x : Nat) (y : Nat), ¬ y = x →
    Option.map shallowNode (findNodeInList (mapFirstById t x (setOpValue op v)) y)
      = Option.map shallowNode (findNodeInList t y) := by
  intro t x
  induction t, x using findNodeInList.induct with
  | case1 x => intro y _; simp [mapFirstById_nil]
  | case2 n rest x h =>
    intro y hy
    have heq : nodeId n = x := by simpa using h
    cases n with
    | cond a fp op0 v0 =>
      simp only [nodeId] at heq
      subst heq
      rw [mapFirstById_cond]
      simp only [beq_self_eq_true, if_true, setOpValue]
      rw [findNodeInList_cond, findNodeInList_cond]
      have hb : (a == y) = false := by
        simp
        intro hcon
        exact hy hcon.symm
      simp [hb]
    | logical a op0 cs =>
      simp only [nodeId] at heq
      subst heq
      rw [mapFirstById_logical]
      simp [setOpValue]
    | embedded a fp0 op0 cs =>
      simp only [nodeId] at heq
      subst heq
      rw [mapFirstById_embedded]
      simp [setOpValue]
  | case3 rest x a op0 cs found hf h ihc =>
    intro y hy
    have hb : (a == x) = false := by simpa [nodeId] using h
    rw [mapFirstById_logical]
    simp only [hb, Bool.false_eq_true, if_false, hf, Option.isSome_some, if_true]
    rw [findNodeInList_logical, findNodeInList_logical]
    by_cases hay : (a == y) = true
    · simp [hay, shallowNode]
    · have hay' : (a == y) = false := by simpa using hay
      simp only [hay', Bool.false_eq_true, if_false]
      have hih := ihc y hy
      cases hcy : findNodeInList cs y with
      | none =>
        rw [hcy] at hih
        cases hmy : findNodeInList (mapFirstById cs x (setOpValue op v)) y with
        | none => rfl
        | some q' => rw [hmy] at hih; simp at hih
      | some q =>
        rw [hcy] at hih
        cases hmy : findNodeInList (mapFirstById cs x (setOpValue op v)) y with
        | none => rw [hmy] at hih; simp at hih
        | some q' =>
          rw [hmy] at hih
          exact hih
  | case4 rest x a op0 cs hf h ihc ihr =>
    intro y hy
    have hb : (a == x) = false := by simpa [nodeId] using h
    rw [mapFirstById_logical]
    simp only [hb, Bool.false_eq_true, if_false, hf, Option.isSome_none]
    rw [findNodeInList_logical, findNodeInList_logical]
    by_cases hay : (a == y) = true
    · simp [hay]
    · have hay' : (a == y) = false := by simpa using hay
      simp only [hay', Bool.false_eq_true, if_false]
      cases hcy : findNodeInList cs y with
      | none => simpa using ihr y hy
      | some q => simp
  | case5 rest x a fp0 op0 cs found hf h ihc =>
    intro y hy
    have hb : (a == x) = false := by simpa [nodeId] using h
    rw [mapFirstById_embedded]
    simp only [hb, Bool.false_eq_true, if_false, hf, Option.isSome_some, if_true]
    rw [findNodeInList_embedded, findNodeInList_embedded]
    by_cases hay : (a == y) = true
    · simp [hay, shallowNode]
    · have hay' : (a == y) = false := by simpa using hay
      simp only [hay', Bool.false_eq_true, if_false]
      have hih := ihc y hy
      cases hcy : findNodeInList cs y with
      | none =>
        rw [hcy] at hih
        cases hmy : findNodeInList (mapFirstById cs x (setOpValue op v)) y with
        | none => rfl
        | some q' => rw [hmy] at hih; simp at hih
      | some q =>
        rw [hcy] at hih
        cases hmy : findNodeInList (mapFirstById cs x (setOpValue op v)) y with
        | none => rw [hmy] at hih; simp at hih
        | some q' =>
          rw [hmy] at hih
          exact hih
  | case6 rest x a fp0 op0 cs hf h ihc ihr =>
    intro y hy
    have hb : (a == x) = false := by simpa [nodeId] using h
    rw [mapFirstById_embedded]
    simp only [hb, Bool.false_eq_true, if_false, hf, Option.isSome_none]
    rw [findNodeInList_embedded, findNodeInList_embedded]
    by_cases hay : (a == y) = true
    · simp [hay]
    · have hay' : (a == y) = false := by simpa using hay
      simp only [hay', Bool.false_eq_true, if_false]
      cases hcy : findNodeInList cs y with
      | none => simpa using ihr y hy
      | some q => simp
  | case7 rest x a fp0 op0 v0 h ihr =>
    intro y hy
    have hb : (a == x) = false := by simpa [nodeId] using h
    rw [mapFirstById_cond]
    simp only [hb, Bool.false_eq_true, if_false]
    rw [findNodeInList_cond, findNodeInList_cond]
    by_cases hay : (a == y) = true
    · simp [hay]
    · have hay' : (a == y) = false := by simpa using hay
      simp only [hay', Bool.false_eq_true, if_false]
      exact ihr y hy

/-- A container node (`logical` or `embedded`), the only valid parents. -/
def isContainerNode : Node → Bool
  | .cond _ _ _ _ => false
  | .logical _ _ _ => true
  | .embedded _ _ _ _ => true

theorem appendChild_nodeId (p n : Node) : nodeId (appendChild p n) = nodeId p := by
  cases p <;> simp [appendChild, nodeId]

theorem setOpValue_nodeId (op : String) (v : QueryVal) (n : Node) :
    nodeId (setOpValue op v n) = nodeId n := by
  cases n <;> simp [setOpValue, nodeId]

theorem appendChild_ids (p n : Node) (h : isContainerNode p = true) :
    nodeIds (appendChild p n) = nodeIds p ++ nodeIds n := by
  cases p with
  | cond i fp op v => simp [isContainerNode] at h
  | logical i op cs => simp [appendChild, nodeIds, treeIdsAux_append, treeIdsAux]
  | embedded i fp op cs => simp [appendChild, nodeIds, treeIdsAux_append, treeIdsAux]

/-- C6: for every `add*` call with a parent id `x`: a missing `x` raises
`ParentNotFound`; a `condition` node `x` raises `InvalidParentType`; a
`logical`/`embedded` node `x` accepts the new node, which is appended to
`x`'s `children`/`subtree` (looking `x` up afterwards returns it with the
new node appended). -/
theorem container_only_attachment :
    ∀ (tree : List Node) (node : Node) (x : Nat),
      (x ∉ treeIdsAux tree → addNode tree node (some x) = .error .parentNotFound)
      ∧ (∀ i' fp op v, findNodeInList tree x = some (.cond i' fp op v) →
          addNode tree node (some x) = .error .invalidParentType)
      ∧ (∀ p, findNodeInList tree x = some p → isContainerNode p = true →
          addNode tree node (some x) =
            .ok (mapFirstById tree x (fun q => appendChild q node))
          ∧ findNodeInList (mapFirstById tree x (fun q => appendChild q node)) x =
              some (appendChild p node)) := by
  intro tree node x
  refine ⟨?_, ?_, ?_⟩
  · intro hx
    have hfind : findNodeInList tree x = none := (find_none_iff tree x).mpr hx
    simp [addNode, hfind]
  · intro i' fp op v hfind
    simp [addNode, hfind]
  · intro p hfind hcont
    constructor
    · cases p with
      | cond i' fp op v => simp [isContainerNode] at hcont
      | logical i' op cs => simp [addNode, hfind]
      | embedded i' fp op cs => simp [addNode, hfind]
    · exact find_mapFirst_self tree x (fun q => appendChild q node) p hfind
        (appendChild_nodeId p node)

/-- Witness for `container_only_attachment`: the three branches exercised on
a tree with one `$and` container and one condition leaf. -/
theorem container_only_attachment_witness :
    addNode [Node.logical 0 "$and" [Node.cond 1 ["a"] "$eq" (.num 1)]]
        (Node.cond 7 ["b"] "$eq" (.num 2)) (some 9) = .error .parentNotFound
    ∧ addNode [Node.logical 0 "$and" [Node.cond 1 ["a"] "$eq" (.num 1)]]
        (Node.cond 7 ["b"] "$eq" (.num 2)) (some 1) = .error .invalidParentType
    ∧ addNode [Node.logical 0 "$and" [Node.cond 1 ["a"] "$eq" (.num 1)]]
        (Node.cond 7 ["b"] "$eq" (.num 2)) (some 0) =
        .ok (mapFirstById [Node.logical 0 "$and" [Node.cond 1 ["a"] "$eq" (.num 1)]] 0
          (fun q => appendChild q (Node.cond 7 ["b"] "$eq" (.num 2)))) := by
  refine ⟨?_, ?_, ?_⟩
  · exact (container_only_attachment _ _ 9).1
      (by simp [treeIdsAux, nodeIds])
  · exact (container_only_attachment _ _ 1).2.1 1 ["a"] "$eq" (.num 1)
      (by simp [findNodeInList_logical, findNodeInList_cond])
  · exact ((container_only_attachment _ _ 0).2.2 (Node.logical 0 "$and"
        [Node.cond 1 ["a"] "$eq" (.num 1)])
      (by simp [findNodeInList_logical]) rfl).1

/-- C7: `updateConditionNode` raises `NodeNotFound` for a missing id and
`InvalidNodeType` for a `logical`/`embedded` node, leaving the state
untouched in both cases; on a `condition` node it returns `true` and
replaces only that node's operator and value in place — its id and field
path survive, every other node's own data survives, and the tree's
pre-order id sequence is unchanged. -/
theorem update_restricted_to_conditions :
    ∀ (s : SiftState) (x : Nat) (op : String) (v : QueryVal),
      (x ∉ treeIdsAux s.tree → updateConditionNode s x op v = (.error .nodeNotFound, s))
      ∧ (∀ n, findNodeInList s.tree x = some n → isContainerNode n = true →
          updateConditionNode s x op v = (.error .invalidNodeType, s))
      ∧ (∀ i' fp op0 v0, findNodeInList s.tree x = some (.cond i' fp op0 v0) →
          updateConditionNode s x op v =
            (.ok true, ⟨mapFirstById s.tree x (setOpValue op v), s.idCounter⟩)
          ∧ findNodeInList (mapFirstById s.tree x (setOpValue op v)) x =
              some (.cond i' fp op v)
          ∧ (∀ y, ¬ y = x →
              Option.map shallowNode (findNodeInList (mapFirstById s.tree x (setOpValue op v)) y)
                = Option.map shallowNode (findNodeInList s.tree y))
          ∧ treeIdsAux (mapFirstById s.tree x (setOpValue op v)) = treeIdsAux s.tree) := by
  intro s x op v
  refine ⟨?_, ?_, ?_⟩
  · intro hx
    have hfind : findNodeInList s.tree x = none := (find_none_iff s.tree x).mpr hx
    simp [updateConditionNode, hfind]
  · intro n hfind hcont
    cases n with
    | cond i' fp op0 v0 => simp [isContainerNode] at hcont
    | logical i' op0 cs => simp [updateConditionNode, hfind]
    | embedded i' fp0 op0 cs => simp [updateConditionNode, hfind]
  · intro i' fp op0 v0 hfind
    refine ⟨by simp [updateConditionNode, hfind], ?_, ?_, ?_⟩
    · have := find_mapFirst_self s.tree x (setOpValue op v) (.cond i' fp op0 v0) hfind
        (setOpValue_nodeId op v _)
      simpa [setOpValue] using this
    · intro y hy
      exact find_map_setOp_other op v s.tree x y hy
    · obtain ⟨A, B, hids, hids'⟩ := mapFirst_spec s.tree x (setOpValue op v) _ hfind
      rw [hids, hids']
      simp [setOpValue, nodeIds]

/-- Witness for `update_restricted_to_conditions` on a two-node tree. -/
theorem update_restricted_to_conditions_witness :
    updateConditionNode ⟨[Node.logical 0 "$and" [Node.cond 1 ["a"] "$eq" (.num 1)]], 2⟩
        9 "$ne" (.num 5) =
      (.error .nodeNotFound, ⟨[Node.logical 0 "$and" [Node.cond 1 ["a"] "$eq" (.num 1)]], 2⟩)
    ∧ updateConditionNode ⟨[Node.logical 0 "$and" [Node.cond 1 ["a"] "$eq" (.num 1)]], 2⟩
        0 "$ne" (.num 5) =
      (.error .invalidNodeType, ⟨[Node.logical 0 "$and" [Node.cond 1 ["a"] "$eq" (.num 1)]], 2⟩)
    ∧ updateConditionNode ⟨[Node.logical 0 "$and" [Node.cond 1 ["a"] "$eq" (.num 1)]], 2⟩
        1 "$ne" (.num 5) =
      (.ok true, ⟨mapFirstById [Node.logical 0 "$and" [Node.cond 1 ["a"] "$eq" (.num 1)]] 1
        (setOpValue "$ne" (.num 5)), 2⟩) := by
  refine ⟨?_, ?_, ?_⟩
  · exact (update_restricted_to_conditions _ 9 "$ne" (.num 5)).1
      (by simp [treeIdsAux, nodeIds])
  · exact (update_restricted_to_conditions _ 0 "$ne" (.num 5)).2.1
      (Node.logical 0 "$and" [Node.cond 1 ["a"] "$eq" (.num 1)])
      (by simp [findNodeInList_logical]) rfl
  · exact ((update_restricted_to_conditions _ 1 "$ne" (.num 5)).2.2
      1 ["a"] "$eq" (.num 1)
      (by simp [findNodeInList_logical, findNodeInList_cond])).1

/-- C5 (counterexample): on a fresh instance, `addConditionNode` with a
missing parent raises `ParentNotFound`, yet the instance state is not what
it was before the call: `_generateId()` has already incremented the id
counter, so the next successful add is numbered 1, not 0. -/
theorem add_failure_bumps_counter_counterexample :
    (addConditionNode ⟨[], 0⟩ ["a"] "$eq" (.num 1) (some 0)).1 = .error .parentNotFound
    ∧ (addConditionNode ⟨[], 0⟩ ["a"] "$eq" (.num 1) (some 0)).2 =
        (⟨[], 1⟩ : SiftState)
    ∧ (⟨[], 1⟩ : SiftState) ≠ (⟨[], 0⟩ : SiftState) := by
  refine ⟨?_, ?_, ?_⟩
  · simp [addConditionNode, addNode, findNodeInList_nil]
  · simp [addConditionNode, addNode, findNodeInList_nil]
  · simp

/-- C5 (amended): when an `add*` call raises `ParentNotFound` or
`InvalidParentType`, the tree is exactly as it was before the call, but the
id counter has already been incremented by one — the failed call burns the
generated id. -/
theorem add_failure_leaves_tree_burns_id :
    ∀ (s : SiftState) (fp : List String) (op : String) (v : QueryVal)
      (pid : Option Nat) (e : SerErr),
      ((addConditionNode s fp op v pid).1 = .error e →
        (addConditionNode s fp op v pid).2 = ⟨s.tree, s.idCounter + 1⟩)
      ∧ ((addLogicalNode s op pid).1 = .error e →
        (addLogicalNode s op pid).2 = ⟨s.tree, s.idCounter + 1⟩)
      ∧ ((addEmbeddedNode s fp op pid).1 = .error e →
        (addEmbeddedNode s fp op pid).2 = ⟨s.tree, s.idCounter + 1⟩) := by
  intro s fp op v pid e
  refine ⟨?_, ?_, ?_⟩
  · intro h
    unfold addConditionNode at h ⊢
    dsimp only at h ⊢
    cases haddr : addNode s.tree (Node.cond s.idCounter fp op v) pid with
    | ok tree' => rw [haddr] at h; simp at h
    | error e' => rfl
  · intro h
    unfold addLogicalNode at h ⊢
    dsimp only at h ⊢
    cases haddr : addNode s.tree (Node.logical s.idCounter op []) pid with
    | ok tree' => rw [haddr] at h; simp at h
    | error e' => rfl
  · intro h
    unfold addEmbeddedNode at h ⊢
    dsimp only at h ⊢
    cases haddr : addNode s.tree (Node.embedded s.idCounter fp op []) pid with
    | ok tree' => rw [haddr] at h; simp at h
    | error e' => rfl

/-- Witness for `add_failure_leaves_tree_burns_id` at a concrete failing
call of each method. -/
theorem add_failure_leaves_tree_burns_id_witness :
    (addConditionNode ⟨[], 5⟩ ["a"] "$eq" (.num 1) (some 3)).2 = (⟨[], 6⟩ : SiftState)
    ∧ (addLogicalNode ⟨[], 5⟩ "$and" (some 3)).2 = (⟨[], 6⟩ : SiftState)
    ∧ (addEmbeddedNode ⟨[], 5⟩ ["t"] "$some" (some 3)).2 = (⟨[], 6⟩ : SiftState) :=
  ⟨(add_failure_leaves_tree_burns_id ⟨[], 5⟩ ["a"] "$eq" (.num 1) (some 3)
      .parentNotFound).1 (by simp [addConditionNode, addNode, findNodeInList_nil]),
   (add_failure_leaves_tree_burns_id ⟨[], 5⟩ ["a"] "$and" (.num 1) (some 3)
      .parentNotFound).2.1 (by simp [addLogicalNode, addNode, findNodeInList_nil]),
   (add_failure_leaves_tree_burns_id ⟨[], 5⟩ ["t"] "$some" (.num 1) (some 3)
      .parentNotFound).2.2 (by simp [addEmbeddedNode, addNode, findNodeInList_nil])⟩

/-- C8: in a tree with pairwise distinct ids, removing a `logical` or
`embedded` node found by id succeeds and removes its whole subtree: looking
up its id or the id of any former descendant afterwards finds nothing. -/
theorem removal_cascades :
    ∀ (t : List Node) (x : Nat) (n : Node),
      (treeIdsAux t).Nodup →
      findNodeInList t x = some n →
      isContainerNode n = true →
      (removeNodeFromList t x).1 = true
      ∧ ∀ y ∈ nodeIds n, findNodeInList ((removeNodeFromList t x).2) y = none := by
  intro t x n hnodup hfind _
  obtain ⟨h1, A, B, hids, hids'⟩ := remove_spec t x n hfind
  refine ⟨h1, ?_⟩
  intro y hy
  rw [find_none_iff, hids']
  rw [hids] at hnodup
  rw [List.nodup_append] at hnodup
  obtain ⟨hA, hnB, hdisj⟩ := hnodup
  rw [List.nodup_append] at hnB
  obtain ⟨hn, hB, hdisj2⟩ := hnB
  intro hmem
  rw [List.mem_append] at hmem
  cases hmem with
  | inl hmemA => exact hdisj hmemA (List.mem_append.mpr (Or.inl hy))
  | inr hmemB => exact hdisj2 hy hmemB

/-- Witness for `removal_cascades`: removing the `$and` container of a
two-node tree makes both former ids unfindable. -/
theorem removal_cascades_witness :
    (removeNodeFromList [Node.logical 0 "$and" [Node.cond 1 ["a"] "$eq" (.num 1)]] 0).1 = true
    ∧ findNodeInList
        (removeNodeFromList [Node.logical 0 "$and" [Node.cond 1 ["a"] "$eq" (.num 1)]] 0).2
        0 = none
    ∧ findNodeInList
        (removeNodeFromList [Node.logical 0 "$and" [Node.cond 1 ["a"] "$eq" (.num 1)]] 0).2
        1 = none := by
  have h := removal_cascades [Node.logical 0 "$and" [Node.cond 1 ["a"] "$eq" (.num 1)]] 0
    (Node.logical 0 "$and" [Node.cond 1 ["a"] "$eq" (.num 1)])
    (by simp [treeIdsAux, nodeIds])
    (by simp [findNodeInList_logical])
    rfl
  exact ⟨h.1, h.2 0 (by simp [nodeIds, treeIdsAux]), h.2 1 (by simp [nodeIds, treeIdsAux])⟩

/-- The id invariant of §3: all ids in the tree are pairwise distinct and
below the instance's id counter. -/
def IdInvariant (s : SiftState) : Prop :=
  (treeIdsAux s.tree).Nodup ∧ ∀ i ∈ treeIdsAux s.tree, i < s.idCounter

theorem addNode_ok_ids (tree : List Node) (node : Node) (pid : Option Nat)
    (tree' : List Node) (h : addNode tree node pid = .ok tree') :
    ∃ A B, treeIdsAux tree = A ++ B
      ∧ treeIdsAux tree' = A ++ (nodeIds node ++ B) := by
  cases pid with
  | none =>
    simp [addNode] at h
    subst h
    exact ⟨treeIdsAux tree, [], by simp, by simp [treeIdsAux_append, treeIdsAux]⟩
  | some x =>
    cases hf : findNodeInList tree x with
    | none => simp [addNode, hf] at h
    | some p =>
      cases p with
      | cond i' fp op v => simp [addNode, hf] at h
      | logical i' op cs =>
        simp [addNode, hf] at h
        subst h
        obtain ⟨A0, B0, hids, hids'⟩ :=
          mapFirst_spec tree x (fun q => appendChild q node) _ hf
        refine ⟨A0 ++ nodeIds (Node.logical i' op cs), B0, by simp [hids], ?_⟩
        rw [hids', appendChild_ids _ _ (by simp [isContainerNode])]
        simp
      | embedded i' fp op cs =>
        simp [addNode, hf] at h
        subst h
        obtain ⟨A0, B0, hids, hids'⟩ :=
          mapFirst_spec tree x (fun q => appendChild q node) _ hf
        refine ⟨A0 ++ nodeIds (Node.embedded i' fp op cs), B0, by simp [hids], ?_⟩
        rw [hids', appendChild_ids _ _ (by simp [isContainerNode])]
        simp

theorem nodup_insert_fresh (A B : List Nat) (c : Nat)
    (hnd : (A ++ B).Nodup) (hc : c ∉ A ++ B) : (A ++ (c :: B)).Nodup := by
  rw [List.nodup_middle, List.nodup_cons]
  exact ⟨hc, hnd⟩

theorem nodup_drop_middle (A P B : List Nat)
    (hnd : (A ++ (P ++ B)).Nodup) : (A ++ B).Nodup := by
  rw [List.nodup_iff_count_le_one] at hnd ⊢
  intro a
  have h1 := hnd a
  simp only [List.count_append] at h1 ⊢
  omega

theorem applyOp_invariant (s : SiftState) (o : EditOp) (hinv : IdInvariant s) :
    IdInvariant (applyOp s o) ∧ s.idCounter ≤ (applyOp s o).idCounter := by
  obtain ⟨hnd, hbound⟩ := hinv
  have hfreshmem : s.idCounter ∉ treeIdsAux s.tree := by
    intro hmem
    exact absurd (hbound _ hmem) (by omega)
  cases o with
  | addCond fp op v pid =>
    simp only [applyOp, addConditionNode]
    cases haddr : addNode s.tree (Node.cond s.idCounter fp op v) pid with
    | ok tree' =>
      refine ⟨⟨?_, fun i hi => ?_⟩, Nat.le_succ _⟩
      · obtain ⟨A, B, hAB, hAB'⟩ := addNode_ok_ids _ _ _ _ haddr
        show (treeIdsAux tree').Nodup
        rw [hAB']
        simp only [nodeIds]
        exact nodup_insert_fresh A B _ (hAB ▸ hnd) (hAB ▸ hfreshmem)
      · obtain ⟨A, B, hAB, hAB'⟩ := addNode_ok_ids _ _ _ _ haddr
        replace hi : i ∈ treeIdsAux tree' := hi
        rw [hAB'] at hi
        simp only [nodeIds, List.mem_append, List.mem_cons] at hi
        show i < s.idCounter + 1
        rcases hi with hi | hi | hi
        · have := hbound i (by rw [hAB]; exact List.mem_append.mpr (Or.inl hi))
          omega
        · simp at hi
          omega
        · have := hbound i (by rw [hAB]; exact List.mem_append.mpr (Or.inr hi))
          omega
    | error e =>
      refine ⟨⟨hnd, fun i hi => ?_⟩, Nat.le_succ _⟩
      have := hbound i hi
      show i < s.idCounter + 1
      omega
  | addLogical op pid =>
    simp only [applyOp, addLogicalNode]
    cases haddr : addNode s.tree (Node.logical s.idCounter op []) pid with
    | ok tree' =>
      refine ⟨⟨?_, fun i hi => ?_⟩, Nat.le_succ _⟩
      · obtain ⟨A, B, hAB, hAB'⟩ := addNode_ok_ids _ _ _ _ haddr
        show (treeIdsAux tree').Nodup
        rw [hAB']
        simp only [nodeIds, treeIdsAux]
        exact nodup_insert_fresh A B _ (hAB ▸ hnd) (hAB ▸ hfreshmem)
      · obtain ⟨A, B, hAB, hAB'⟩ := addNode_ok_ids _ _ _ _ haddr
        replace hi : i ∈ treeIdsAux tree' := hi
        rw [hAB'] at hi
        simp only [nodeIds, treeIdsAux, List.mem_append, List.mem_cons] at hi
        show i < s.idCounter + 1
        rcases hi with hi | hi | hi
        · have := hbound i (by rw [hAB]; exact List.mem_append.mpr (Or.inl hi))
          omega
        · simp at hi
          omega
        · have := hbound i (by rw [hAB]; exact List.mem_append.mpr (Or.inr hi))
          omega
    | error e =>
      refine ⟨⟨hnd, fun i hi => ?_⟩, Nat.le_succ _⟩
      have := hbound i hi
      show i < s.idCounter + 1
      omega
  | addEmbedded fp op pid =>
    simp only [applyOp, addEmbeddedNode]
    cases haddr : addNode s.tree (Node.embedded s.idCounter fp op []) pid with
    | ok tree' =>
      refine ⟨⟨?_, fun i hi => ?_⟩, Nat.le_succ _⟩
      · obtain ⟨A, B, hAB, hAB'⟩ := addNode_ok_ids _ _ _ _ haddr
        show (treeIdsAux tree').Nodup
        rw [hAB']
        simp only [nodeIds, treeIdsAux]
        exact nodup_insert_fresh A B _ (hAB ▸ hnd) (hAB ▸ hfreshmem)
      · obtain ⟨A, B, hAB, hAB'⟩ := addNode_ok_ids _ _ _ _ haddr
        replace hi : i ∈ treeIdsAux tree' := hi
        rw [hAB'] at hi
        simp only [nodeIds, treeIdsAux, List.mem_append, List.mem_cons] at hi
        show i < s.idCounter + 1
        rcases hi with hi | hi | hi
        · have := hbound i (by rw [hAB]; exact List.mem_append.mpr (Or.inl hi))
          omega
        · simp at hi
          omega
        · have := hbound i (by rw [hAB]; exact List.mem_append.mpr (Or.inr hi))
          omega
    | error e =>
      refine ⟨⟨hnd, fun i hi => ?_⟩, Nat.le_succ _⟩
      have := hbound i hi
      show i < s.idCounter + 1
      omega
  | removeOp x =>
    simp only [applyOp, removeById]
    cases hf : findNodeInList s.tree x with
    | none =>
      rw [remove_not_found s.tree x hf]
      exact ⟨⟨hnd, hbound⟩, Nat.le_refl _⟩
    | some p =>
      obtain ⟨h1, A, B, hids, hids'⟩ := remove_spec s.tree x p hf
      refine ⟨⟨?_, fun i hi => ?_⟩, Nat.le_refl _⟩
      · show (treeIdsAux (removeNodeFromList s.tree x).2).Nodup
        rw [hids']
        exact nodup_drop_middle A (nodeIds p) B (hids ▸ hnd)
      · replace hi : i ∈ treeIdsAux (removeNodeFromList s.tree x).2 := hi
        rw [hids'] at hi
        show i < s.idCounter
        refine hbound i ?_
        rw [hids]
        simp only [List.mem_append] at hi ⊢
        rcases hi with hi | hi
        · exact Or.inl hi
        · exact Or.inr (Or.inr hi)
  | clearOp =>
    exact ⟨⟨by simp [applyOp, clear, treeIdsAux], by simp [applyOp, clear, treeIdsAux]⟩,
      Nat.le_refl _⟩

theorem runOps_invariant : ∀ (ops : List EditOp) (s : SiftState), IdInvariant s →
    IdInvariant (runOps s ops) ∧ s.idCounter ≤ (runOps s ops).idCounter := by
  intro ops
  induction ops with
  | nil => intro s hinv; exact ⟨hinv, by simp [runOps]⟩
  | cons o rest ih =>
    intro s hinv
    obtain ⟨h1, h2⟩ := applyOp_invariant s o hinv
    obtain ⟨h3, h4⟩ := ih (applyOp s o) h1
    refine ⟨?_, ?_⟩
    · simpa [runOps] using h3
    · calc s.idCounter ≤ (applyOp s o).idCounter := h2
      _ ≤ (runOps (applyOp s o) rest).idCounter := h4
      _ = (runOps s (o :: rest)).idCounter := by simp [runOps]

/-- C4: after any sequence of `add*`, `remove` and `clear` operations on a
fresh instance, the tree's ids are pairwise distinct and all below the id
counter, and the counter never decreases under further operations. Since
each new node receives the counter's current value as its id, an id present
at (or removed before) any point is strictly below every later counter
value, so it can never be assigned to a node created later. -/
theorem ids_pairwise_distinct_never_reused :
    ∀ ops : List EditOp,
      (treeIdsAux (runOps startState ops).tree).Nodup
      ∧ (∀ i ∈ treeIdsAux (runOps startState ops).tree,
          i < (runOps startState ops).idCounter)
      ∧ ∀ extra : List EditOp,
          (runOps startState ops).idCounter ≤ (runOps startState (ops ++ extra)).idCounter := by
  intro ops
  have hstart : IdInvariant startState := ⟨by simp [startState, treeIdsAux], by simp [startState, treeIdsAux]⟩
  obtain ⟨⟨h1, h2⟩, _⟩ := runOps_invariant ops startState hstart
  refine ⟨h1, h2, ?_⟩
  intro extra
  have happ : runOps startState (ops ++ extra) = runOps (runOps startState ops) extra := by
    simp [runOps]
  rw [happ]
  obtain ⟨hinv, _⟩ := runOps_invariant ops startState hstart
  exact (runOps_invariant extra (runOps startState ops) hinv).2

/-- Witness for `ids_pairwise_distinct_never_reused`: a concrete sequence
that adds two nodes, removes the container, and keeps counting from 2. -/
theorem ids_pairwise_distinct_never_reused_witness :
    0 < (runOps startState [.addLogical "$and" none, .addCond ["a"] "$eq" (.num 1) (some 0)]).idCounter :=
  (ids_pairwise_distinct_never_reused
    [.addLogical "$and" none, .addCond ["a"] "$eq" (.num 1) (some 0)]).2.1 0
    (by simp [runOps, applyOp, addLogicalNode, addConditionNode, addNode,
      findNodeInList_nil, findNodeInList_logical, mapFirstById_logical, appendChild,
      startState, treeIdsAux, nodeIds])

/-- An object in the plain sense of the spec's deep-merge rule: a mapping
(not null, not an array, not a primitive). -/
def isPlainObject : QueryVal → Bool
  | .obj _ => true
  | _ => false

theorem mergePairs_nil (t : QueryVal) : mergePairs t [] = t := by
  rw [mergePairs.eq_def]

theorem mergePairs_cons (t : QueryVal) (k : String) (v : QueryVal)
    (rest : List (String × QueryVal)) :
    mergePairs t ((k, v) :: rest) =
      mergePairs (setProp t k
        (if jsTruthy (getProp t k) && isObjType (getProp t k) && isObjType v
         then deepMerge (getProp t k) v else v)) rest := by
  rw [mergePairs.eq_def]

theorem deepMerge_obj (t : QueryVal) (ss : List (String × QueryVal)) :
    deepMerge t (.obj ss) = mergePairs t ss := by
  rw [deepMerge.eq_def]

theorem deepMerge_null (t : QueryVal) : deepMerge t .null = t := by
  rw [deepMerge.eq_def]

theorem getProp_obj_setPair_same : ∀ (ts : List (String × QueryVal)) (k : String) (v : QueryVal),
    getProp (.obj (setPair ts k v)) k = v := by
  intro ts k v
  induction ts with
  | nil => simp [setPair, getProp]
  | cons hd rest ih =>
    obtain ⟨k0, w⟩ := hd
    by_cases hk : (k0 == k) = true
    · simp [setPair, hk, getProp]
    · have hk' : (k0 == k) = false := by simpa using hk
      simp only [setPair, hk', Bool.false_eq_true, if_false]
      simp only [getProp, List.find?] at ih ⊢
      rw [hk']
      exact ih

theorem getProp_obj_setPair_other : ∀ (ts : List (String × QueryVal)) (k k' : String)
    (v : QueryVal), ¬ k' = k →
    getProp (.obj (setPair ts k v)) k' = getProp (.obj ts) k' := by
  intro ts k k' v hne
  induction ts with
  | nil =>
    simp only [setPair, getProp, List.find?]
    have : (k == k') = false := by
      simp
      intro hcon
      exact hne hcon.symm
    rw [this]
  | cons hd rest ih =>
    obtain ⟨k0, w⟩ := hd
    by_cases hk : (k0 == k) = true
    · have hkk : k0 = k := by simpa using hk
      simp only [setPair, hk, if_true]
      simp only [getProp, List.find?]
      have hf : (k0 == k') = false := by
        rw [hkk]
        simp
        intro hcon
        exact hne hcon.symm
      rw [hf]
    · have hk' : (k0 == k) = false := by simpa using hk
      simp only [setPair, hk', Bool.false_eq_true, if_false]
      simp only [getProp, List.find?] at ih ⊢
      cases hk0 : (k0 == k') with
      | true => rfl
      | false => exact ih

theorem setProp_obj (ts : List (String × QueryVal)) (k : String) (v : QueryVal) :
    setProp (.obj ts) k v = .obj (setPair ts k v) := rfl

theorem mergePairs_per_key : ∀ (ss ts : List (String × QueryVal)),
    keysNodup ss = true →
    (∀ k v, (k, v) ∈ ss →
      getProp (mergePairs (.obj ts) ss) k =
        if jsTruthy (getProp (.obj ts) k) && isObjType (getProp (.obj ts) k)
            && isObjType v
        then deepMerge (getProp (.obj ts) k) v else v)
    ∧ (∀ k, k ∉ ss.map Prod.fst →
      getProp (mergePairs (.obj ts) ss) k = getProp (.obj ts) k) := by
  intro ss
  induction ss with
  | nil =>
    intro ts _
    constructor
    · intro k v hmem
      simp at hmem
    · intro k _
      rw [mergePairs_nil]
  | cons hd rest ih =>
    obtain ⟨k0, v0⟩ := hd
    intro ts hnodup
    have hnd0 : ¬ (rest.any fun kv => kv.1 == k0) = true := by
      simp only [keysNodup, Bool.and_eq_true, Bool.not_eq_true'] at hnodup
      simp [hnodup.1]
    have hndrest : keysNodup rest = true := by
      simp only [keysNodup, Bool.and_eq_true] at hnodup
      exact hnodup.2
    have hk0rest : k0 ∉ rest.map Prod.fst := by
      intro hmem
      apply hnd0
      rw [List.any_eq_true]
      simp only [List.mem_map] at hmem
      obtain ⟨kv, hkv, hfst⟩ := hmem
      exact ⟨kv, hkv, by simp [hfst]⟩
    constructor
    · intro k v hmem
      rw [mergePairs_cons, setProp_obj]
      rcases List.mem_cons.mp hmem with hhead | htail
      · have hk : k = k0 := by injection hhead with h1 h2
        have hv : v = v0 := by injection hhead with h1 h2
        subst hk
        subst hv
        rw [(ih _ hndrest).2 k hk0rest]
        rw [getProp_obj_setPair_same]
      · have hkne : ¬ k = k0 := by
          intro hcon
          subst hcon
          apply hnd0
          rw [List.any_eq_true]
          exact ⟨(k, v), htail, by simp⟩
        rw [(ih _ hndrest).1 k v htail]
        rw [getProp_obj_setPair_other ts k0 k _ hkne]
    · intro k hknot
      have hkne : ¬ k = k0 := by
        intro hcon
        apply hknot
        rw [hcon]
        simp
      have hkrest : k ∉ rest.map Prod.fst := by
        intro hmem
        apply hknot
        simp [hmem]
      rw [mergePairs_cons, setProp_obj]
      rw [(ih _ hndrest).2 k hkrest]
      rw [getProp_obj_setPair_other ts k0 k _ hkne]

/-- C9 (counterexample): merging `{ "a": { "x": 1 } }` with incoming
`{ "a": null }`. The incoming value at key `"a"` is null — not an object —
so by the claim it should overwrite; but `typeof null === 'object'` makes
the code recurse, and merging with a keyless source returns the existing
object unchanged. -/
theorem deep_merge_null_counterexample :
    deepMerge (.obj [("a", .obj [("x", .num 1)])]) (.obj [("a", .null)])
      = .obj [("a", .obj [("x", .num 1)])]
    ∧ isPlainObject (getProp (.obj [("a", .null)]) "a") = false
    ∧ ¬ getProp (deepMerge (.obj [("a", .obj [("x", .num 1)])]) (.obj [("a", .null)])) "a"
        = getProp (.obj [("a", .null)]) "a" := by
  refine ⟨rfl, rfl, ?_⟩
  intro h
  simp [getProp, deepMerge_obj, deepMerge_null, mergePairs_cons, mergePairs_nil,
    jsTruthy, isObjType, setProp, setPair] at h

/-- C9 (amended): for each key of an incoming object (with its keys
pairwise distinct, as in any JavaScript object): when the existing value at
that key is truthy and object-typed and the incoming value is object-typed
— where JavaScript's `typeof` counts null and arrays as objects — the
result at that key is their recursive deep merge (so an incoming null
leaves the existing object unchanged); otherwise the incoming value
overwrites. Keys absent from the incoming object are untouched. -/
theorem deep_merge_per_key :
    ∀ (ts ss : List (String × QueryVal)),
      keysNodup ss = true →
      (∀ k v, (k, v) ∈ ss →
        getProp (deepMerge (.obj ts) (.obj ss)) k =
          if jsTruthy (getProp (.obj ts) k) && isObjType (getProp (.obj ts) k)
              && isObjType v
          then deepMerge (getProp (.obj ts) k) v else v)
      ∧ (∀ k, k ∉ ss.map Prod.fst →
        getProp (deepMerge (.obj ts) (.obj ss)) k = getProp (.obj ts) k) := by
  intro ts ss hnodup
  rw [deepMerge_obj]
  exact mergePairs_per_key ss ts hnodup

/-- Witness for `deep_merge_per_key` at the counterexample's input: the
existing object survives an incoming null, and an absent key is kept. -/
theorem deep_merge_per_key_witness :
    getProp (deepMerge (.obj [("a", .obj [("x", .num 1)]), ("b", .num 7)])
        (.obj [("a", .null)])) "a"
      = deepMerge (.obj [("x", .num 1)]) .null
    ∧ getProp (deepMerge (.obj [("a", .obj [("x", .num 1)]), ("b", .num 7)])
        (.obj [("a", .null)])) "b"
      = getProp (.obj [("a", .obj [("x", .num 1)]), ("b", .num 7)]) "b" := by
  constructor
  · have h := (deep_merge_per_key [("a", .obj [("x", .num 1)]), ("b", .num 7)]
      [("a", .null)] rfl).1 "a" .null (by simp)
    simpa [getProp, jsTruthy, isObjType] using h
  · exact (deep_merge_per_key [("a", .obj [("x", .num 1)]), ("b", .num 7)]
      [("a", .null)] rfl).2 "b" (by simp)

/-- The step a single source key contributes in `_deepMerge`: recursive
merge when the existing value is truthy and object-typed and the incoming
one is object-typed, otherwise overwrite. -/
def chainStep (acc o : QueryVal) : QueryVal :=
  if jsTruthy acc && isObjType acc && isObjType o then deepMerge acc o else o

/-- Folding `chainStep` over successive incoming values at one key. -/
def chainFold (t : QueryVal) (os : List QueryVal) : QueryVal :=
  os.foldl chainStep t

/-- The per-node condition objects a field's value decomposes into,
relative to the field's own path: one singleton per comparison or embedded
operator, and recursively nested singletons for a nested field mapping. -/
def leafObjs : List (String × QueryVal) → List QueryVal
  | [] => []
  | (k, v) :: rest =>
    (if isComparisonOperator k || isEmbeddedOperator k then [QueryVal.obj [(k, v)]]
     else
       match v with
       | .obj fs2 => (leafObjs fs2).map fun o => QueryVal.obj [(k, o)]
       | _ => []) ++ leafObjs rest

mutual

/-- Modelled from the spec (§6, §8) and restricted as the round-trip
counterexample forces: the documented grammar with no semantically-empty
branches, where additionally every element of a `$and`/`$or` array is a
single-key object expanding to exactly one AST node. -/
def goodQuery : QueryVal → Bool
  | .obj fields => !fields.isEmpty && keysNodup fields && goodEntries fields
  | _ => false

/-- Each top-level key of a restricted condition object. -/
def goodEntries : List (String × QueryVal) → Bool
  | [] => true
  | (key, value) :: rest =>
    (if key == "$and" || key == "$or" then
       (match value with
        | .arr items => !items.isEmpty && goodSingletons items
        | _ => false)
     else if key == "$not" then goodQuery value
     else !isOperatorKey key && goodFieldValue value) && goodEntries rest

/-- Each element of a restricted `$and`/`$or` array. -/
def goodSingletons : List QueryVal → Bool
  | [] => true
  | q :: rest => goodSingleton q && goodSingletons rest

/-- A `$and`/`$or` element that expands to exactly one AST node: one key,
either a logical operator or a field name bearing a single-operator
chain. -/
def goodSingleton : QueryVal → Bool
  | .obj [(key, value)] =>
    if key == "$and" || key == "$or" then
      (match value with
       | .arr items => !items.isEmpty && goodSingletons items
       | _ => false)
    else if key == "$not" then goodQuery value
    else !isOperatorKey key && singleChainValue value
  | _ => false

/-- A field value that yields exactly one condition or embedded node: a
single-key chain of field names ending in a single comparison or embedded
operator. -/
def singleChainValue : QueryVal → Bool
  | .obj [(op, w)] =>
    if isComparisonOperator op then validCompValue op w
    else if isEmbeddedOperator op then goodQuery w
    else !isOperatorKey op && singleChainValue w
  | _ => false

/-- A field value of the restricted grammar: a nonempty comparison-operator
mapping, a nonempty embedded-operator mapping, or a nonempty nested field
mapping; no duplicate keys. -/
def goodFieldValue : QueryVal → Bool
  | .obj fields => !fields.isEmpty && keysNodup fields &&
      (goodCompEntries fields || goodEmbEntries fields || goodNestedEntries fields)
  | _ => false

/-- All entries are comparison operators with table-conformant values. -/
def goodCompEntries : List (String × QueryVal) → Bool
  | [] => true
  | (op, w) :: rest =>
    isComparisonOperator op && validCompValue op w && goodCompEntries rest

/-- All entries are embedded operators over restricted sub-filters. -/
def goodEmbEntries : List (String × QueryVal) → Bool
  | [] => true
  | (op, w) :: rest => isEmbeddedOperator op && goodQuery w && goodEmbEntries rest

/-- All entries are field names with restricted field values. -/
def goodNestedEntries : List (String × QueryVal) → Bool
  | [] => true
  | (key, v) :: rest =>
    !isOperatorKey key && goodFieldValue v && goodNestedEntries rest

end

/-- An operator entry of a field's value mapping: a comparison operator
with a table-conformant value, or an embedded operator with a sub-filter
from the restricted grammar. -/
def goodOpEntry (kv : String × QueryVal) : Bool :=
  (isComparisonOperator kv.1 && validCompValue kv.1 kv.2)
    || (isEmbeddedOperator kv.1 && goodQuery kv.2)

/-- The fold `_deserializeNodes` performs, starting from an arbitrary
accumulated object. -/
def mergeInto (t : QueryVal) (ns : List Node) : QueryVal :=
  ((deserializeList ns).filter isNotEmpty).foldl deepMerge t

theorem serializeObject_obj (fields : List (String × QueryVal)) (p : List String) (c : Nat) :
    serializeObject (.obj fields) p c = serializeEntries fields p c := by
  rw [serializeObject.eq_def]

theorem serializeObject_arr (items : List QueryVal) (p : List String) (c : Nat) :
    serializeObject (.arr items) p c = serializeList items p c := by
  rw [serializeObject.eq_def]

theorem serializeList_nil (p : List String) (c : Nat) : serializeList [] p c = ([], c) := by
  rw [serializeList.eq_def]

theorem serializeList_cons (q : QueryVal) (rest : List QueryVal) (p : List String) (c : Nat) :
    serializeList (q :: rest) p c =
      ((serializeObject q p c).1 ++ (serializeList rest p (serializeObject q p c).2).1,
       (serializeList rest p (serializeObject q p c).2).2) := by
  rw [serializeList.eq_def]

theorem serializeEntries_nil (p : List String) (c : Nat) : serializeEntries [] p c = ([], c) := by
  rw [serializeEntries.eq_def]

theorem serializeEntries_not (v : QueryVal) (rest : List (String × QueryVal))
    (p : List String) (c : Nat) :
    serializeEntries (("$not", v) :: rest) p c =
      (Node.logical (serializeObject v p c).2 "$not" (serializeObject v p c).1 ::
        (serializeEntries rest p ((serializeObject v p c).2 + 1)).1,
       (serializeEntries rest p ((serializeObject v p c).2 + 1)).2) := by
  rw [serializeEntries.eq_def]
  rfl

theorem serializeEntries_and_or (key : String) (hk : key = "$and" ∨ key = "$or")
    (items : List QueryVal) (rest : List (String × QueryVal)) (p : List String) (c : Nat) :
    serializeEntries ((key, .arr items) :: rest) p c =
      (Node.logical (serializeList items p c).2 key (serializeList items p c).1 ::
        (serializeEntries rest p ((serializeList items p c).2 + 1)).1,
       (serializeEntries rest p ((serializeList items p c).2 + 1)).2) := by
  rcases hk with hk | hk <;> subst hk <;> (rw [serializeEntries.eq_def]; rfl)

theorem serializeEntries_field_obj (key : String) (hk : isLogicalOperator key = false)
    (fs : List (String × QueryVal)) (rest : List (String × QueryVal))
    (p : List String) (c : Nat) :
    serializeEntries ((key, .obj fs) :: rest) p c =
      ((if anyOperatorKey fs then serializeOps fs key p c
        else serializeEntries fs (p ++ [key]) c).1 ++
        (serializeEntries rest p
          (if anyOperatorKey fs then serializeOps fs key p c
           else serializeEntries fs (p ++ [key]) c).2).1,
       (serializeEntries rest p
         (if anyOperatorKey fs then serializeOps fs key p c
          else serializeEntries fs (p ++ [key]) c).2).2) := by
  rw [serializeEntries.eq_def]
  simp only [hk, Bool.false_eq_true, if_false]

theorem serializeOps_nil (key : String) (p : List String) (c : Nat) :
    serializeOps [] key p c = ([], c) := by
  rw [serializeOps.eq_def]

theorem serializeOps_comp (op : String) (hemb : isEmbeddedOperator op = false)
    (hcomp : isComparisonOperator op = true) (w : QueryVal)
    (rest : List (String × QueryVal)) (key : String) (p : List String) (c : Nat) :
    serializeOps ((op, w) :: rest) key p c =
      (Node.cond c (p ++ [key]) op w :: (serializeOps rest key p (c + 1)).1,
       (serializeOps rest key p (c + 1)).2) := by
  rw [serializeOps.eq_def]
  simp only [hemb, Bool.false_eq_true, if_false, hcomp, if_true]
  rfl

theorem serializeOps_emb (op : String) (hemb : isEmbeddedOperator op = true)
    (w : QueryVal) (rest : List (String × QueryVal)) (key : String)
    (p : List String) (c : Nat) :
    serializeOps ((op, w) :: rest) key p c =
      (Node.embedded (serializeObject w [] c).2 (p ++ [key]) op (serializeObject w [] c).1 ::
        (serializeOps rest key p ((serializeObject w [] c).2 + 1)).1,
       (serializeOps rest key p ((serializeObject w [] c).2 + 1)).2) := by
  rw [serializeOps.eq_def]
  simp only [hemb, if_true]
  rfl

theorem deserializeList_nil : deserializeList [] = [] := by
  rw [deserializeList.eq_def]

theorem deserializeList_cons (n : Node) (rest : List Node) :
    deserializeList (n :: rest) = deserializeNode n :: deserializeList rest := by
  rw [deserializeList.eq_def]

theorem deserializeNode_cond (i : Nat) (fp : List String) (op : String) (v : QueryVal) :
    deserializeNode (.cond i fp op v) = buildNestedObject fp (.obj [(op, v)]) := by
  rw [deserializeNode.eq_def]

theorem deserializeNode_logical (i : Nat) (op : String) (ch : List Node) :
    deserializeNode (.logical i op ch) =
      if op == "$not" then
        if isNotEmpty (mergeObjects ((deserializeList ch).filter isNotEmpty)) then
          .obj [("$not", mergeObjects ((deserializeList ch).filter isNotEmpty))]
        else .obj []
      else
        if !((deserializeList ch).filter isNotEmpty).isEmpty then
          .obj [(op, .arr ((deserializeList ch).filter isNotEmpty))]
        else .obj [] := by
  rw [deserializeNode.eq_def]

theorem deserializeNode_embedded (i : Nat) (fp : List String) (op : String) (sub : List Node) :
    deserializeNode (.embedded i fp op sub) =
      if isNotEmpty (mergeObjects ((deserializeList sub).filter isNotEmpty)) then
        buildNestedObject fp (.obj [(op, mergeObjects ((deserializeList sub).filter isNotEmpty))])
      else .obj [] := by
  rw [deserializeNode.eq_def]

theorem deserializeList_append (a b : List Node) :
    deserializeList (a ++ b) = deserializeList a ++ deserializeList b := by
  induction a with
  | nil => simp [deserializeList_nil]
  | cons n rest ih => simp [deserializeList_cons, ih]

theorem mergeInto_append (t : QueryVal) (ns ms : List Node) :
    mergeInto t (ns ++ ms) = mergeInto (mergeInto t ns) ms := by
  simp [mergeInto, deserializeList_append, List.filter_append, List.foldl_append]

theorem deserializeNodes_eq_mergeInto (ns : List Node) :
    deserializeNodes ns = mergeInto (.obj []) ns := rfl

theorem buildNestedObject_concat (q1 q2 : List String) (o : QueryVal) :
    buildNestedObject (q1 ++ q2) o = buildNestedObject q1 (buildNestedObject q2 o) := by
  induction q1 with
  | nil => simp [buildNestedObject]
  | cons k rest ih => simp [buildNestedObject, ih]

theorem buildNestedObject_single (k : String) (o : QueryVal) :
    buildNestedObject [k] o = .obj [(k, o)] := rfl

theorem getProp_not_mem (ts : List (String × QueryVal)) (k : String)
    (h : k ∉ ts.map Prod.fst) : getProp (.obj ts) k = .undef := by
  induction ts with
  | nil => rfl
  | cons hd rest ih =>
    obtain ⟨k0, v0⟩ := hd
    have hne : ¬ k0 = k := by
      intro hcon
      exact h (by simp [hcon])
    simp only [getProp, List.find?]
    have hb : (k0 == k) = false := by simpa using hne
    rw [hb]
    have : k ∉ rest.map Prod.fst := by
      intro hmem
      exact h (by simp [hmem])
    simpa [getProp] using ih this

theorem setPair_not_mem (ts : List (String × QueryVal)) (k : String) (v : QueryVal)
    (h : k ∉ ts.map Prod.fst) : setPair ts k v = ts ++ [(k, v)] := by
  induction ts with
  | nil => rfl
  | cons hd rest ih =>
    obtain ⟨k0, v0⟩ := hd
    have hne : ¬ k0 = k := by
      intro hcon
      exact h (by simp [hcon])
    have hb : (k0 == k) = false := by simpa using hne
    simp only [setPair, hb, Bool.false_eq_true, if_false, List.cons_append]
    rw [ih (by intro hmem; exact h (by simp [hmem]))]

theorem setPair_setPair (ts : List (String × QueryVal)) (k : String) (a b : QueryVal) :
    setPair (setPair ts k a) k b = setPair ts k b := by
  induction ts with
  | nil => simp [setPair]
  | cons hd rest ih =>
    obtain ⟨k0, v0⟩ := hd
    by_cases hb : (k0 == k) = true
    · simp [setPair, hb]
    · have hb' : (k0 == k) = false := by simpa using hb
      simp [setPair, hb', ih]

theorem mergePairs_obj (ss ts : List (String × QueryVal)) :
    ∃ us, mergePairs (.obj ts) ss = .obj us := by
  induction ss generalizing ts with
  | nil => exact ⟨ts, mergePairs_nil _⟩
  | cons hd rest ih =>
    obtain ⟨k, v⟩ := hd
    rw [mergePairs_cons, setProp_obj]
    exact ih _

theorem chainFold_nil (t : QueryVal) : chainFold t [] = t := rfl

theorem chainFold_cons (t : QueryVal) (o : QueryVal) (os : List QueryVal) :
    chainFold t (o :: os) = chainFold (chainStep t o) os := rfl

theorem chainFold_append (t : QueryVal) (a b : List QueryVal) :
    chainFold t (a ++ b) = chainFold (chainFold t a) b := by
  simp [chainFold, List.foldl_append]

theorem chainStep_undef (o : QueryVal) : chainStep .undef o = o := by
  simp [chainStep, jsTruthy]

theorem deepMerge_singleton (t : QueryVal) (h : String) (o : QueryVal) :
    deepMerge t (.obj [(h, o)]) = setProp t h (chainStep (getProp t h) o) := by
  rw [deepMerge_obj, mergePairs_cons, mergePairs_nil]
  rfl

theorem chainStep_obj_obj (ts : List (String × QueryVal)) (ss : List (String × QueryVal)) :
    chainStep (.obj ts) (.obj ss) = deepMerge (.obj ts) (.obj ss) := by
  simp [chainStep, jsTruthy, isObjType]

theorem foldl_deepMerge_eq_chainFold (os : List QueryVal) :
    ∀ ts, (∀ o ∈ os, isPlainObject o = true) →
    List.foldl deepMerge (.obj ts) os = chainFold (.obj ts) os := by
  induction os with
  | nil => intro ts _; rfl
  | cons o rest ih =>
    intro ts hobj
    have ho : isPlainObject o = true := hobj o (by simp)
    obtain ⟨ss, hss⟩ : ∃ ss, o = .obj ss := by
      cases o <;> first | exact ⟨_, rfl⟩ | simp [isPlainObject] at ho
    subst hss
    rw [List.foldl_cons, chainFold_cons, chainStep_obj_obj, deepMerge_obj]
    obtain ⟨us, hus⟩ := mergePairs_obj ss ts
    rw [hus]
    exact ih us (fun x hx => hobj x (by simp [hx]))

theorem chainFold_undef_obj_head (h : String) (o : QueryVal) (xs : List QueryVal) :
    chainFold .undef (QueryVal.obj [(h, o)] :: xs) =
      chainFold (.obj []) (QueryVal.obj [(h, o)] :: xs) := by
  rw [chainFold_cons, chainFold_cons, chainStep_undef, chainStep_obj_obj,
    deepMerge_singleton]
  have : getProp (.obj []) h = .undef := rfl
  rw [this, chainStep_undef]
  rfl

theorem chainFold_group (os : List QueryVal) :
    ∀ (h : String) (ts : List (String × QueryVal)), os ≠ [] →
    chainFold (.obj ts) (os.map fun o => QueryVal.obj [(h, o)]) =
      .obj (setPair ts h (chainFold (getProp (.obj ts) h) os)) := by
  induction os with
  | nil => intro h ts hne; exact absurd rfl hne
  | cons o rest ih =>
    intro h ts _
    rw [List.map_cons, chainFold_cons, chainFold_cons, chainStep_obj_obj,
      deepMerge_singleton, setProp_obj]
    cases rest with
    | nil =>
      rw [List.map_nil, chainFold_nil, chainFold_nil]
    | cons o2 rest2 =>
      rw [ih h (setPair ts h (chainStep (getProp (.obj ts) h) o)) (by simp)]
      rw [getProp_obj_setPair_same, setPair_setPair]

theorem chainFold_flat (fs : List (String × QueryVal)) :
    ∀ ds, keysNodup fs = true →
    (∀ k ∈ fs.map Prod.fst, k ∉ ds.map Prod.fst) →
    chainFold (.obj ds) (fs.map fun kv => QueryVal.obj [kv]) = .obj (ds ++ fs) := by
  induction fs with
  | nil => intro ds _ _; simp [chainFold_nil]
  | cons hd rest ih =>
    obtain ⟨k, v⟩ := hd
    intro ds hnodup hdisj
    rw [List.map_cons, chainFold_cons, chainStep_obj_obj, deepMerge_singleton,
      getProp_not_mem ds k (hdisj k (by simp)), chainStep_undef, setProp_obj,
      setPair_not_mem ds k v (hdisj k (by simp))]
    have hnodup' : keysNodup rest = true := by
      simp only [keysNodup, Bool.and_eq_true] at hnodup
      exact hnodup.2
    have hdisj' : ∀ k' ∈ rest.map Prod.fst, k' ∉ (ds ++ [(k, v)]).map Prod.fst := by
      intro k' hk' hmem
      simp only [List.map_append, List.mem_append] at hmem
      rcases hmem with hmem | hmem
      · exact hdisj k' (by simp [hk']) hmem
      · simp at hmem
        subst hmem
        simp only [keysNodup, Bool.and_eq_true, Bool.not_eq_true'] at hnodup
        rw [List.any_eq_false] at hnodup
        obtain ⟨kv2, hkv2, hfst⟩ := List.mem_map.mp hk'
        have := hnodup.1 kv2 hkv2
        simp [hfst] at this
    rw [ih (ds ++ [(k, v)]) hnodup' hdisj']
    simp

theorem goodQuery_obj (fields : List (String × QueryVal)) :
    goodQuery (.obj fields) =
      (!fields.isEmpty && keysNodup fields && goodEntries fields) := by
  rw [goodQuery.eq_def]

theorem goodEntries_cons (key : String) (value : QueryVal)
    (rest : List (String × QueryVal)) :
    goodEntries ((key, value) :: rest) =
      ((if key == "$and" || key == "$or" then
          (match value with
           | .arr items => !items.isEmpty && goodSingletons items
           | _ => false)
        else if key == "$not" then goodQuery value
        else !isOperatorKey key && goodFieldValue value) && goodEntries rest) := by
  rw [goodEntries.eq_def]

theorem goodSingletons_nil : goodSingletons [] = true := by
  rw [goodSingletons.eq_def]

theorem goodSingletons_cons (q : QueryVal) (rest : List QueryVal) :
    goodSingletons (q :: rest) = (goodSingleton q && goodSingletons rest) := by
  rw [goodSingletons.eq_def]

theorem goodSingleton_single (key : String) (value : QueryVal) :
    goodSingleton (.obj [(key, value)]) =
      (if key == "$and" || key == "$or" then
         (match value with
          | .arr items => !items.isEmpty && goodSingletons items
          | _ => false)
       else if key == "$not" then goodQuery value
       else !isOperatorKey key && singleChainValue value) := by
  rw [goodSingleton.eq_def]

theorem singleChainValue_single (op : String) (w : QueryVal) :
    singleChainValue (.obj [(op, w)]) =
      (if isComparisonOperator op then validCompValue op w
       else if isEmbeddedOperator op then goodQuery w
       else !isOperatorKey op && singleChainValue w) := by
  rw [singleChainValue.eq_def]

theorem goodFieldValue_obj (fields : List (String × QueryVal)) :
    goodFieldValue (.obj fields) =
      (!fields.isEmpty && keysNodup fields &&
        (goodCompEntries fields || goodEmbEntries fields || goodNestedEntries fields)) := by
  rw [goodFieldValue.eq_def]

theorem goodFieldValue_is_obj (v : QueryVal) (h : goodFieldValue v = true) :
    ∃ gs, v = .obj gs := by
  cases v with
  | obj gs => exact ⟨gs, rfl⟩
  | _ => rw [goodFieldValue.eq_def] at h; cases h

theorem goodCompEntries_cons (op : String) (w : QueryVal)
    (rest : List (String × QueryVal)) :
    goodCompEntries ((op, w) :: rest) =
      (isComparisonOperator op && validCompValue op w && goodCompEntries rest) := by
  rw [goodCompEntries.eq_def]

theorem goodEmbEntries_cons (op : String) (w : QueryVal)
    (rest : List (String × QueryVal)) :
    goodEmbEntries ((op, w) :: rest) =
      (isEmbeddedOperator op && goodQuery w && goodEmbEntries rest) := by
  rw [goodEmbEntries.eq_def]

theorem goodNestedEntries_cons (key : String) (v : QueryVal)
    (rest : List (String × QueryVal)) :
    goodNestedEntries ((key, v) :: rest) =
      (!isOperatorKey key && goodFieldValue v && goodNestedEntries rest) := by
  rw [goodNestedEntries.eq_def]

theorem goodComp_all_op (fs : List (String × QueryVal)) (h : goodCompEntries fs = true) :
    ∀ kv ∈ fs, goodOpEntry kv = true := by
  induction fs with
  | nil => intro kv hkv; simp at hkv
  | cons hd rest ih =>
    obtain ⟨op, w⟩ := hd
    rw [goodCompEntries_cons] at h
    simp only [Bool.and_eq_true] at h
    intro kv hkv
    rcases List.mem_cons.mp hkv with hkv | hkv
    · subst hkv
      simp [goodOpEntry, h.1.1, h.1.2]
    · exact ih h.2 kv hkv

theorem goodEmb_all_op (fs : List (String × QueryVal)) (h : goodEmbEntries fs = true) :
    ∀ kv ∈ fs, goodOpEntry kv = true := by
  induction fs with
  | nil => intro kv hkv; simp at hkv
  | cons hd rest ih =>
    obtain ⟨op, w⟩ := hd
    rw [goodEmbEntries_cons] at h
    simp only [Bool.and_eq_true] at h
    intro kv hkv
    rcases List.mem_cons.mp hkv with hkv | hkv
    · subst hkv
      simp [goodOpEntry, h.1.1, h.1.2]
    · exact ih h.2 kv hkv

theorem goodOpEntry_isOp (kv : String × QueryVal) (h : goodOpEntry kv = true) :
    (isEmbeddedOperator kv.1 || isComparisonOperator kv.1 || isLogicalOperator kv.1) = true := by
  simp only [goodOpEntry, Bool.or_eq_true, Bool.and_eq_true] at h
  rcases h with h | h
  · simp [h.1]
  · simp [h.1]

theorem anyOperatorKey_of_ops (fs : List (String × QueryVal)) (hne : fs ≠ [])
    (h : ∀ kv ∈ fs, goodOpEntry kv = true) : anyOperatorKey fs = true := by
  cases fs with
  | nil => exact absurd rfl hne
  | cons hd rest =>
    simp only [anyOperatorKey, List.any_cons, Bool.or_eq_true]
    exact Or.inl (by simpa using goodOpEntry_isOp hd (h hd (by simp)))

theorem anyOperatorKey_nested_false (fs : List (String × QueryVal))
    (h : goodNestedEntries fs = true) : anyOperatorKey fs = false := by
  induction fs with
  | nil => rfl
  | cons hd rest ih =>
    obtain ⟨k, v⟩ := hd
    rw [goodNestedEntries_cons] at h
    simp only [Bool.and_eq_true, Bool.not_eq_true'] at h
    simp only [anyOperatorKey, List.any_cons, Bool.or_eq_false_iff]
    constructor
    · have hop : isOperatorKey k = false := h.1.1
      simp only [isOperatorKey, Bool.or_eq_false_iff] at hop
      simp [hop.1.2, hop.2, hop.1.1]
    · exact ih h.2

theorem leafObjs_nil : leafObjs [] = [] := by
  rw [leafObjs.eq_def]

theorem leafObjs_cons_op (k : String) (v : QueryVal) (rest : List (String × QueryVal))
    (h : (isComparisonOperator k || isEmbeddedOperator k) = true) :
    leafObjs ((k, v) :: rest) = QueryVal.obj [(k, v)] :: leafObjs rest := by
  rw [leafObjs.eq_def]
  simp only [h, if_true]
  rfl

theorem leafObjs_cons_nested (k : String) (fs2 rest : List (String × QueryVal))
    (h : (isComparisonOperator k || isEmbeddedOperator k) = false) :
    leafObjs ((k, .obj fs2) :: rest) =
      ((leafObjs fs2).map fun o => QueryVal.obj [(k, o)]) ++ leafObjs rest := by
  rw [leafObjs.eq_def]
  simp only [h, Bool.false_eq_true, if_false]

theorem leafObjs_ops (fs : List (String × QueryVal))
    (h : ∀ kv ∈ fs, goodOpEntry kv = true) :
    leafObjs fs = fs.map fun kv => QueryVal.obj [kv] := by
  induction fs with
  | nil => simp [leafObjs_nil]
  | cons hd rest ih =>
    obtain ⟨k, v⟩ := hd
    have hk := goodOpEntry_isOp (k, v) (h (k, v) (by simp))
    have hk' : (isComparisonOperator k || isEmbeddedOperator k) = true := by
      simp only [Bool.or_eq_true] at hk ⊢
      rcases hk with (hk | hk) | hk
      · exact Or.inr hk
      · exact Or.inl hk
      · exfalso
        have := h (k, v) (by simp)
        simp only [goodOpEntry, Bool.or_eq_true, Bool.and_eq_true] at this
        rcases this with hcomp | hemb
        · revert hk hcomp
          simp only [isLogicalOperator, isComparisonOperator]
          intro hk hcomp
          rcases (by simpa using hk : k = "$and" ∨ k = "$or" ∨ k = "$not") with h1 | h1 | h1 <;>
            (subst h1; simp at hcomp)
        · revert hk hemb
          simp only [isLogicalOperator, isEmbeddedOperator]
          intro hk hemb
          rcases (by simpa using hk : k = "$and" ∨ k = "$or" ∨ k = "$not") with h1 | h1 | h1 <;>
            (subst h1; simp at hemb)
    rw [leafObjs_cons_op k v rest hk', ih (fun kv hkv => h kv (by simp [hkv]))]
    rfl

theorem leafObjs_ne_aux : ∀ (n : Nat) (fs : List (String × QueryVal)), sizeOf fs ≤ n →
    goodFieldValue (.obj fs) = true → leafObjs fs ≠ [] := by
  intro n
  induction n using Nat.strong_induction_on with
  | _ n ih =>
    intro fs hsz hgood
    cases fs with
    | nil =>
      rw [goodFieldValue_obj] at hgood
      simp at hgood
    | cons hd rest =>
      obtain ⟨k, v⟩ := hd
      rw [goodFieldValue_obj] at hgood
      simp only [Bool.and_eq_true, Bool.or_eq_true] at hgood
      obtain ⟨⟨hne, hnodup⟩, hbranch⟩ := hgood
      rcases hbranch with (hcomp | hemb) | hnested
      · rw [goodCompEntries_cons] at hcomp
        simp only [Bool.and_eq_true] at hcomp
        rw [leafObjs_cons_op k v rest (by simp [hcomp.1.1])]
        simp
      · rw [goodEmbEntries_cons] at hemb
        simp only [Bool.and_eq_true] at hemb
        rw [leafObjs_cons_op k v rest (by simp [hemb.1.1])]
        simp
      · rw [goodNestedEntries_cons] at hnested
        simp only [Bool.and_eq_true, Bool.not_eq_true'] at hnested
        obtain ⟨⟨hop, hgv⟩, _⟩ := hnested
        obtain ⟨gs, hv⟩ := goodFieldValue_is_obj v hgv
        subst hv
        have hk : (isComparisonOperator k || isEmbeddedOperator k) = false := by
          simp only [isOperatorKey, Bool.or_eq_false_iff] at hop
          simp [hop.1.2, hop.2]
        rw [leafObjs_cons_nested k gs rest hk]
        have hszgs : sizeOf gs < n := by
          have h1 : sizeOf gs < sizeOf ((k, QueryVal.obj gs) :: rest) := by
            simp
            omega
          omega
        have hrec : leafObjs gs ≠ [] := ih (sizeOf gs) hszgs gs (le_refl _) hgv
        intro hcon
        rcases List.append_eq_nil.mp hcon with ⟨h1, _⟩
        exact hrec (List.map_eq_nil_iff.mp h1)

theorem leafObjs_ne (fs : List (String × QueryVal))
    (hgood : goodFieldValue (.obj fs) = true) : leafObjs fs ≠ [] :=
  leafObjs_ne_aux (sizeOf fs) fs (le_refl _) hgood

theorem leafObjs_head (fs : List (String × QueryVal))
    (hgood : goodFieldValue (.obj fs) = true) :
    ∃ h x tail, leafObjs fs = QueryVal.obj [(h, x)] :: tail := by
  cases fs with
  | nil =>
    rw [goodFieldValue_obj] at hgood
    simp at hgood
  | cons hd rest =>
    obtain ⟨k, v⟩ := hd
    rw [goodFieldValue_obj] at hgood
    simp only [Bool.and_eq_true, Bool.or_eq_true] at hgood
    obtain ⟨⟨hne, hnodup⟩, hbranch⟩ := hgood
    rcases hbranch with (hcomp | hemb) | hnested
    · rw [goodCompEntries_cons] at hcomp
      simp only [Bool.and_eq_true] at hcomp
      rw [leafObjs_cons_op k v rest (by simp [hcomp.1.1])]
      exact ⟨k, v, leafObjs rest, rfl⟩
    · rw [goodEmbEntries_cons] at hemb
      simp only [Bool.and_eq_true] at hemb
      rw [leafObjs_cons_op k v rest (by simp [hemb.1.1])]
      exact ⟨k, v, leafObjs rest, rfl⟩
    · rw [goodNestedEntries_cons] at hnested
      simp only [Bool.and_eq_true, Bool.not_eq_true'] at hnested
      obtain ⟨⟨hop, hgv⟩, _⟩ := hnested
      obtain ⟨gs, hv⟩ := goodFieldValue_is_obj v hgv
      subst hv
      have hk : (isComparisonOperator k || isEmbeddedOperator k) = false := by
        simp only [isOperatorKey, Bool.or_eq_false_iff] at hop
        simp [hop.1.2, hop.2]
      rw [leafObjs_cons_nested k gs rest hk]
      obtain ⟨o1, ot, hinner⟩ : ∃ o1 ot, leafObjs gs = o1 :: ot := by
        cases hlo : leafObjs gs with
        | nil => exact absurd hlo (leafObjs_ne gs hgv)
        | cons o1 ot => exact ⟨o1, ot, rfl⟩
      rw [hinner]
      exact ⟨k, o1, (ot.map fun o => QueryVal.obj [(k, o)]) ++ leafObjs rest, rfl⟩

theorem nest_fold : ∀ (fs ds : List (String × QueryVal)),
    goodNestedEntries fs = true → keysNodup fs = true →
    (∀ k ∈ fs.map Prod.fst, k ∉ ds.map Prod.fst) →
    (∀ k v, (k, v) ∈ fs → ∃ gs, v = QueryVal.obj gs
        ∧ chainFold .undef (leafObjs gs) = .obj gs ∧ leafObjs gs ≠ []) →
    chainFold (.obj ds) (leafObjs fs) = .obj (ds ++ fs) := by
  intro fs
  induction fs with
  | nil =>
    intro ds _ _ _ _
    simp [leafObjs_nil, chainFold_nil]
  | cons hd rest ih =>
    obtain ⟨k, v⟩ := hd
    intro ds hgood hnodup hdisj hinner
    obtain ⟨gs, hv, hfold, hne⟩ := hinner k v (by simp)
    subst hv
    rw [goodNestedEntries_cons] at hgood
    simp only [Bool.and_eq_true, Bool.not_eq_true'] at hgood
    obtain ⟨⟨hop, hgv⟩, hgrest⟩ := hgood
    have hk : (isComparisonOperator k || isEmbeddedOperator k) = false := by
      simp only [isOperatorKey, Bool.or_eq_false_iff] at hop
      simp [hop.1.2, hop.2]
    rw [leafObjs_cons_nested k gs rest hk, chainFold_append,
      chainFold_group (leafObjs gs) k ds hne,
      getProp_not_mem ds k (hdisj k (by simp)), hfold,
      setPair_not_mem ds k _ (hdisj k (by simp))]
    have hnodup' : keysNodup rest = true := by
      simp only [keysNodup, Bool.and_eq_true] at hnodup
      exact hnodup.2
    have hdisj' : ∀ k' ∈ rest.map Prod.fst, k' ∉ (ds ++ [(k, QueryVal.obj gs)]).map Prod.fst := by
      intro k' hk' hmem
      simp only [List.map_append, List.mem_append] at hmem
      rcases hmem with hmem | hmem
      · exact hdisj k' (by simp [hk']) hmem
      · simp at hmem
        subst hmem
        simp only [keysNodup, Bool.and_eq_true, Bool.not_eq_true'] at hnodup
        rw [List.any_eq_false] at hnodup
        obtain ⟨kv2, hkv2, hfst⟩ := List.mem_map.mp hk'
        have := hnodup.1 kv2 hkv2
        simp [hfst] at this
    rw [ih (ds ++ [(k, QueryVal.obj gs)]) hgrest hnodup' hdisj'
      (fun k' v' hkv' => hinner k' v' (by simp [hkv']))]
    simp

theorem mergeObjects_filter (ns : List Node) :
    mergeObjects ((deserializeList ns).filter isNotEmpty) = mergeInto (.obj []) ns := rfl

theorem goodQuery_parts (v : QueryVal) (h : goodQuery v = true) :
    ∃ gf, v = .obj gf ∧ gf ≠ [] ∧ keysNodup gf = true ∧ goodEntries gf = true := by
  cases v with
  | obj gf =>
    rw [goodQuery_obj] at h
    simp only [Bool.and_eq_true] at h
    refine ⟨gf, rfl, ?_, h.1.2, h.2⟩
    intro hcon
    subst hcon
    simp at h
  | num n => rw [goodQuery.eq_def] at h; cases h
  | str s => rw [goodQuery.eq_def] at h; cases h
  | bool b => rw [goodQuery.eq_def] at h; cases h
  | null => rw [goodQuery.eq_def] at h; cases h
  | undef => rw [goodQuery.eq_def] at h; cases h
  | arr items => rw [goodQuery.eq_def] at h; cases h

theorem goodSingleton_shape (e : QueryVal) (h : goodSingleton e = true) :
    ∃ k v, e = .obj [(k, v)] := by
  cases e with
  | obj fs =>
    cases fs with
    | nil => rw [goodSingleton.eq_def] at h; cases h
    | cons kv rest =>
      cases rest with
      | nil => exact ⟨kv.1, kv.2, by rw [Prod.mk.eta]⟩
      | cons kv2 rest2 => rw [goodSingleton.eq_def] at h; cases h
  | num n => rw [goodSingleton.eq_def] at h; cases h
  | str s => rw [goodSingleton.eq_def] at h; cases h
  | bool b => rw [goodSingleton.eq_def] at h; cases h
  | null => rw [goodSingleton.eq_def] at h; cases h
  | undef => rw [goodSingleton.eq_def] at h; cases h
  | arr items => rw [goodSingleton.eq_def] at h; cases h

theorem singleChain_shape (v : QueryVal) (h : singleChainValue v = true) :
    ∃ op w, v = .obj [(op, w)] := by
  cases v with
  | obj fs =>
    cases fs with
    | nil => rw [singleChainValue.eq_def] at h; cases h
    | cons kv rest =>
      cases rest with
      | nil => exact ⟨kv.1, kv.2, by rw [Prod.mk.eta]⟩
      | cons kv2 rest2 => rw [singleChainValue.eq_def] at h; cases h
  | num n => rw [singleChainValue.eq_def] at h; cases h
  | str s => rw [singleChainValue.eq_def] at h; cases h
  | bool b => rw [singleChainValue.eq_def] at h; cases h
  | null => rw [singleChainValue.eq_def] at h; cases h
  | undef => rw [singleChainValue.eq_def] at h; cases h
  | arr items => rw [singleChainValue.eq_def] at h; cases h

theorem goodEntries_nil : goodEntries [] = true := by
  rw [goodEntries.eq_def]

theorem goodCompEntries_nil : goodCompEntries [] = true := by
  rw [goodCompEntries.eq_def]

theorem goodEmbEntries_nil : goodEmbEntries [] = true := by
  rw [goodEmbEntries.eq_def]

theorem goodNestedEntries_nil : goodNestedEntries [] = true := by
  rw [goodNestedEntries.eq_def]

theorem singleChain_good : ∀ (m : Nat) (v : QueryVal), sizeOf v ≤ m →
    singleChainValue v = true → goodFieldValue v = true := by
  intro m
  induction m using Nat.strong_induction_on with
  | _ m ih =>
    intro v hsz hchain
    obtain ⟨op, w, hv⟩ := singleChain_shape v hchain
    subst hv
    rw [singleChainValue_single] at hchain
    rw [goodFieldValue_obj]
    by_cases hcomp : isComparisonOperator op = true
    · rw [if_pos hcomp] at hchain
      have h1 : goodCompEntries [(op, w)] = true := by
        rw [goodCompEntries_cons, goodCompEntries_nil]
        simp [hcomp, hchain]
      simp [keysNodup, h1]
    · have hcomp' : isComparisonOperator op = false := by simpa using hcomp
      rw [if_neg hcomp] at hchain
      by_cases hemb : isEmbeddedOperator op = true
      · rw [if_pos hemb] at hchain
        have h1 : goodEmbEntries [(op, w)] = true := by
          rw [goodEmbEntries_cons, goodEmbEntries_nil]
          simp [hemb, hchain]
        simp [keysNodup, h1]
      · have hemb' : isEmbeddedOperator op = false := by simpa using hemb
        rw [if_neg hemb] at hchain
        simp only [Bool.and_eq_true, Bool.not_eq_true'] at hchain
        have hw : goodFieldValue w = true := by
          apply ih (sizeOf w) ?_ w (le_refl _) hchain.2
          have hlt : sizeOf w < sizeOf (QueryVal.obj [(op, w)]) := by
            simp
            omega
          omega
        have h1 : goodNestedEntries [(op, w)] = true := by
          rw [goodNestedEntries_cons, goodNestedEntries_nil]
          simp [hchain.1, hw]
        simp [keysNodup, h1]

theorem singleChain_leaf : ∀ (m : Nat) (fs : List (String × QueryVal)), sizeOf fs ≤ m →
    singleChainValue (.obj fs) = true → leafObjs fs = [.obj fs] := by
  intro m
  induction m using Nat.strong_induction_on with
  | _ m ih =>
    intro fs hsz hchain
    obtain ⟨op, w, hv⟩ := singleChain_shape _ hchain
    have hfs : fs = [(op, w)] := by injection hv
    subst hfs
    rw [singleChainValue_single] at hchain
    by_cases hcomp : isComparisonOperator op = true
    · rw [leafObjs_cons_op op w [] (by simp [hcomp]), leafObjs_nil]
    · have hcomp' : isComparisonOperator op = false := by simpa using hcomp
      rw [if_neg hcomp] at hchain
      by_cases hemb : isEmbeddedOperator op = true
      · rw [leafObjs_cons_op op w [] (by simp [hemb]), leafObjs_nil]
      · have hemb' : isEmbeddedOperator op = false := by simpa using hemb
        rw [if_neg hemb] at hchain
        simp only [Bool.and_eq_true, Bool.not_eq_true'] at hchain
        obtain ⟨op2, w2, hw⟩ := singleChain_shape w hchain.2
        subst hw
        rw [leafObjs_cons_nested op _ [] (by simp [hcomp', hemb']), leafObjs_nil]
        have hrec : leafObjs [(op2, w2)] = [.obj [(op2, w2)]] := by
          apply ih (sizeOf [(op2, w2)]) ?_ _ (le_refl _) hchain.2
          have hlt : sizeOf ([(op2, w2)] : List (String × QueryVal)) <
              sizeOf ([(op, QueryVal.obj [(op2, w2)])] : List (String × QueryVal)) := by
            simp
            omega
          omega
        rw [hrec]
        simp

theorem comp_not_emb (op : String) (h : isComparisonOperator op = true) :
    isEmbeddedOperator op = false := by
  have hmem : op ∈ ["$eq", "$in", "$nin", "$lt", "$gt", "$lte", "$gte", "$ne",
      "$ilike", "$all", "$exists", "$elemMatch"] := by
    simpa [isComparisonOperator] using h
  have hall : ∀ x ∈ ["$eq", "$in", "$nin", "$lt", "$gt", "$lte", "$gte", "$ne",
      "$ilike", "$all", "$exists", "$elemMatch"], isEmbeddedOperator x = false := by decide
  exact hall op hmem

theorem isNotEmpty_buildNested (q : List String) (o : QueryVal) (h : q ≠ []) :
    isNotEmpty (buildNestedObject q o) = true := by
  cases q with
  | nil => exact absurd rfl h
  | cons k rest => simp [buildNestedObject, isNotEmpty]

theorem mergeInto_single (t : QueryVal) (n : Node) (hne : isNotEmpty (deserializeNode n) = true) :
    mergeInto t [n] = deepMerge t (deserializeNode n) := by
  simp [mergeInto, deserializeList_cons, deserializeList_nil, hne]

theorem map_buildNested_single (key : String) (os : List QueryVal) :
    os.map (buildNestedObject [key]) = os.map fun o => QueryVal.obj [(key, o)] := rfl

theorem ops_deserialize (fs : List (String × QueryVal)) :
    ∀ (key : String) (p : List String) (c : Nat),
    (∀ kv ∈ fs, goodOpEntry kv = true) →
    (∀ kv ∈ fs, isEmbeddedOperator kv.1 = true →
      ∀ c', mergeInto (.obj []) (serializeObject kv.2 [] c').1 = kv.2
        ∧ isNotEmpty kv.2 = true) →
    (deserializeList (serializeOps fs key p c).1).filter isNotEmpty
      = (leafObjs fs).map (buildNestedObject (p ++ [key])) := by
  induction fs with
  | nil =>
    intro key p c _ _
    simp [serializeOps_nil, deserializeList_nil, leafObjs_nil]
  | cons hd rest ih =>
    obtain ⟨op, w⟩ := hd
    intro key p c hops hbodies
    have hop := hops (op, w) (by simp)
    simp only [goodOpEntry, Bool.or_eq_true, Bool.and_eq_true] at hop
    have htail : ∀ c2 : Nat, (deserializeList (serializeOps rest key p c2).1).filter isNotEmpty
        = (leafObjs rest).map (buildNestedObject (p ++ [key])) := fun c2 =>
      ih key p c2 (fun kv hkv => hops kv (by simp [hkv]))
        (fun kv hkv h' => hbodies kv (by simp [hkv]) h')
    rcases hop with hcomp | hemb
    · have hembf : isEmbeddedOperator op = false := comp_not_emb op hcomp.1
      rw [serializeOps_comp op hembf hcomp.1 w rest key p c,
        deserializeList_cons, deserializeNode_cond, List.filter_cons,
        if_pos (isNotEmpty_buildNested (p ++ [key]) _ (by simp)),
        leafObjs_cons_op op w rest (by simp [hcomp.1]), List.map_cons, htail (c + 1)]
    · rw [serializeOps_emb op hemb.1 w rest key p c,
        deserializeList_cons, deserializeNode_embedded, mergeObjects_filter,
        (hbodies (op, w) (by simp) hemb.1 c).1,
        if_pos (hbodies (op, w) (by simp) hemb.1 c).2,
        List.filter_cons,
        if_pos (isNotEmpty_buildNested (p ++ [key]) _ (by simp)),
        leafObjs_cons_op op w rest (by simp [hemb.1]), List.map_cons,
        htail ((serializeObject w [] c).2 + 1)]

theorem nested_serialize (fs : List (String × QueryVal)) :
    ∀ (q : List String) (c : Nat),
    goodNestedEntries fs = true →
    (∀ k v, (k, v) ∈ fs → ∃ gs, v = QueryVal.obj gs ∧
      ∀ (key' : String) (p' : List String) (c' : Nat),
        (deserializeList (if anyOperatorKey gs then serializeOps gs key' p' c'
            else serializeEntries gs (p' ++ [key']) c').1).filter isNotEmpty
          = (leafObjs gs).map (buildNestedObject (p' ++ [key']))) →
    (deserializeList (serializeEntries fs q c).1).filter isNotEmpty
      = (leafObjs fs).map (buildNestedObject q) := by
  induction fs with
  | nil =>
    intro q c _ _
    simp [serializeEntries_nil, deserializeList_nil, leafObjs_nil]
  | cons hd rest ih =>
    obtain ⟨k, v⟩ := hd
    intro q c hgood hmembers
    rw [goodNestedEntries_cons] at hgood
    simp only [Bool.and_eq_true, Bool.not_eq_true'] at hgood
    obtain ⟨⟨hop, hgv⟩, hgrest⟩ := hgood
    obtain ⟨gs, hv, hF1⟩ := hmembers k v (by simp)
    subst hv
    have hlog : isLogicalOperator k = false := by
      simp only [isOperatorKey, Bool.or_eq_false_iff] at hop
      exact hop.1.1
    have hkne : (isComparisonOperator k || isEmbeddedOperator k) = false := by
      simp only [isOperatorKey, Bool.or_eq_false_iff] at hop
      simp [hop.1.2, hop.2]
    rw [serializeEntries_field_obj k hlog gs rest q c,
      deserializeList_append, List.filter_append, hF1 k q c,
      ih q _ hgrest (fun k' v' hkv' => hmembers k' v' (by simp [hkv'])),
      leafObjs_cons_nested k gs rest hkne]
    rw [List.map_append, List.map_map]
    congr 1
    apply List.map_congr_left
    intro o _
    rw [buildNestedObject_concat q [k] o]
    rfl

theorem mergeInto_cons (t : QueryVal) (n : Node) (ns : List Node) :
    mergeInto t (n :: ns) =
      mergeInto (if isNotEmpty (deserializeNode n) then deepMerge t (deserializeNode n) else t)
        ns := by
  simp only [mergeInto, deserializeList_cons, List.filter_cons]
  by_cases h : isNotEmpty (deserializeNode n) = true
  · rw [if_pos h, if_pos h, List.foldl_cons]
  · rw [if_neg h, if_neg h]

theorem goodComp_mem (fs : List (String × QueryVal)) (h : goodCompEntries fs = true) :
    ∀ kv ∈ fs, isComparisonOperator kv.1 = true := by
  induction fs with
  | nil => intro kv hkv; simp at hkv
  | cons hd rest ih =>
    obtain ⟨op, w⟩ := hd
    rw [goodCompEntries_cons] at h
    simp only [Bool.and_eq_true] at h
    intro kv hkv
    rcases List.mem_cons.mp hkv with hkv | hkv
    · subst hkv; exact h.1.1
    · exact ih h.2 kv hkv

theorem goodEmb_mem (fs : List (String × QueryVal)) (h : goodEmbEntries fs = true) :
    ∀ kv ∈ fs, isEmbeddedOperator kv.1 = true ∧ goodQuery kv.2 = true := by
  induction fs with
  | nil => intro kv hkv; simp at hkv
  | cons hd rest ih =>
    obtain ⟨op, w⟩ := hd
    rw [goodEmbEntries_cons] at h
    simp only [Bool.and_eq_true] at h
    intro kv hkv
    rcases List.mem_cons.mp hkv with hkv | hkv
    · subst hkv; exact ⟨h.1.1, h.1.2⟩
    · exact ih h.2 kv hkv

theorem goodNested_mem (fs : List (String × QueryVal)) (h : goodNestedEntries fs = true) :
    ∀ kv ∈ fs, isOperatorKey kv.1 = false ∧ goodFieldValue kv.2 = true := by
  induction fs with
  | nil => intro kv hkv; simp at hkv
  | cons hd rest ih =>
    obtain ⟨k, v⟩ := hd
    rw [goodNestedEntries_cons] at h
    simp only [Bool.and_eq_true, Bool.not_eq_true'] at h
    intro kv hkv
    rcases List.mem_cons.mp hkv with hkv | hkv
    · subst hkv; exact ⟨h.1.1, h.1.2⟩
    · exact ih h.2 kv hkv

theorem goodSingletons_mem (items : List QueryVal) (h : goodSingletons items = true) :
    ∀ e ∈ items, goodSingleton e = true := by
  induction items with
  | nil => intro e he; simp at he
  | cons q rest ih =>
    rw [goodSingletons_cons] at h
    simp only [Bool.and_eq_true] at h
    intro e he
    rcases List.mem_cons.mp he with he | he
    · subst he; exact h.1
    · exact ih h.2 e he

theorem roundtrip_aux : ∀ n : Nat,
    (∀ fields, sizeOf fields ≤ n → ∀ (c : Nat) (ts : List (String × QueryVal)),
      goodEntries fields = true → keysNodup fields = true →
      (∀ k ∈ fields.map Prod.fst, k ∉ ts.map Prod.fst) →
      mergeInto (.obj ts) (serializeEntries fields [] c).1 = .obj (ts ++ fields))
    ∧ (∀ fs, sizeOf fs ≤ n → goodFieldValue (.obj fs) = true →
      (∀ (key : String) (p : List String) (c : Nat),
        (deserializeList (if anyOperatorKey fs then serializeOps fs key p c
            else serializeEntries fs (p ++ [key]) c).1).filter isNotEmpty
          = (leafObjs fs).map (buildNestedObject (p ++ [key])))
      ∧ chainFold .undef (leafObjs fs) = .obj fs)
    ∧ (∀ e, sizeOf e ≤ n → ∀ c : Nat, goodSingleton e = true →
      (deserializeList (serializeObject e [] c).1).filter isNotEmpty = [e])
    ∧ (∀ items, sizeOf items ≤ n → ∀ c : Nat, goodSingletons items = true →
      (deserializeList (serializeList items [] c).1).filter isNotEmpty = items) := by
  intro n
  induction n using Nat.strong_induction_on with
  | _ n ih =>
    have htop : ∀ v, sizeOf v < n → goodQuery v = true →
        ∀ c, mergeInto (.obj []) (serializeObject v [] c).1 = v ∧ isNotEmpty v = true := by
      intro v hlt hg c
      obtain ⟨gf, rfl, hne, hnodup, hentries⟩ := goodQuery_parts _ hg
      have hszgf : sizeOf gf < n := by
        have h1 : sizeOf gf < sizeOf (QueryVal.obj gf) := by simp
        omega
      constructor
      · rw [serializeObject_obj]
        have := (ih (sizeOf gf) hszgf).1 gf (le_refl _) c [] hentries hnodup (by simp)
        simpa using this
      · cases gf with
        | nil => exact absurd rfl hne
        | cons a b => rfl
    refine ⟨?_, ?_, ?_, ?_⟩
    · -- serializing a good entry list and merging back appends the fields
      intro fields hsz c ts hentries hnodup hdisj
      cases fields with
      | nil =>
        rw [serializeEntries_nil]
        simp [mergeInto, deserializeList_nil]
      | cons hd rest =>
        obtain ⟨key, value⟩ := hd
        rw [goodEntries_cons] at hentries
        simp only [Bool.and_eq_true] at hentries
        obtain ⟨hhead, hrest⟩ := hentries
        have hnodup' : keysNodup rest = true := by
          simp only [keysNodup, Bool.and_eq_true] at hnodup
          exact hnodup.2
        have hszrest : sizeOf rest < n := by
          have h1 : sizeOf rest < sizeOf ((key, value) :: rest) := by simp
          omega
        have hkeynotin : key ∉ ts.map Prod.fst := hdisj key (by simp)
        have hdisj' : ∀ k' ∈ rest.map Prod.fst, k' ∉ (ts ++ [(key, value)]).map Prod.fst := by
          intro k' hk' hmem
          simp only [List.map_append, List.mem_append] at hmem
          rcases hmem with hmem | hmem
          · exact hdisj k' (by simp [hk']) hmem
          · simp at hmem
            subst hmem
            simp only [keysNodup, Bool.and_eq_true, Bool.not_eq_true'] at hnodup
            rw [List.any_eq_false] at hnodup
            obtain ⟨kv2, hkv2, hfst⟩ := List.mem_map.mp hk'
            have := hnodup.1 kv2 hkv2
            simp [hfst] at this
        have htail : ∀ c2, mergeInto (.obj (ts ++ [(key, value)]))
            (serializeEntries rest [] c2).1 = .obj (ts ++ (key, value) :: rest) := by
          intro c2
          rw [(ih (sizeOf rest) hszrest).1 rest (le_refl _) c2 (ts ++ [(key, value)])
            hrest hnodup' hdisj']
          simp
        by_cases h1 : (key == "$and" || key == "$or") = true
        · rw [if_pos h1] at hhead
          cases value with
          | num m => simp at hhead
          | str s => simp at hhead
          | bool b => simp at hhead
          | null => simp at hhead
          | undef => simp at hhead
          | obj fs2 => simp at hhead
          | arr items =>
            simp only [Bool.and_eq_true] at hhead
            have hkey : key = "$and" ∨ key = "$or" := by simpa using h1
            have hnotkey : (key == "$not") = false := by
              rcases hkey with rfl | rfl <;> rfl
            have hszitems : sizeOf items < n := by
              have hlt : sizeOf items < sizeOf ((key, QueryVal.arr items) :: rest) := by
                simp
                omega
              omega
            have hitems := (ih (sizeOf items) hszitems).2.2.2 items (le_refl _) c hhead.2
            have hnode : deserializeNode (Node.logical (serializeList items [] c).2 key
                (serializeList items [] c).1) = .obj [(key, .arr items)] := by
              rw [deserializeNode_logical, if_neg (by simp [hnotkey]),
                if_pos (by rw [hitems]; exact hhead.1), hitems]
            rw [serializeEntries_and_or key hkey items rest [] c, mergeInto_cons, hnode,
              if_pos (by rfl), deepMerge_singleton, getProp_not_mem ts key hkeynotin,
              chainStep_undef, setProp_obj, setPair_not_mem ts key _ hkeynotin]
            exact htail _
        · rw [if_neg h1] at hhead
          by_cases h2 : (key == "$not") = true
          · rw [if_pos h2] at hhead
            have hkey : key = "$not" := by simpa using h2
            subst hkey
            have hszval : sizeOf value < n := by
              have hlt : sizeOf value < sizeOf (("$not", value) :: rest) := by
                simp
                omega
              omega
            have hbody := htop value hszval hhead c
            have hnode : deserializeNode (Node.logical (serializeObject value [] c).2 "$not"
                (serializeObject value [] c).1) = .obj [("$not", value)] := by
              rw [deserializeNode_logical,
                if_pos (by rfl : (("$not" : String) == "$not") = true),
                mergeObjects_filter, hbody.1, if_pos hbody.2]
            rw [serializeEntries_not value rest [] c, mergeInto_cons, hnode,
              if_pos (by rfl), deepMerge_singleton, getProp_not_mem ts "$not" hkeynotin,
              chainStep_undef, setProp_obj, setPair_not_mem ts "$not" _ hkeynotin]
            exact htail _
          · rw [if_neg h2] at hhead
            simp only [Bool.and_eq_true, Bool.not_eq_true'] at hhead
            obtain ⟨hopk, hgfv⟩ := hhead
            obtain ⟨gs, hv⟩ := goodFieldValue_is_obj value hgfv
            subst hv
            have hlog : isLogicalOperator key = false := by
              simp only [isOperatorKey, Bool.or_eq_false_iff] at hopk
              exact hopk.1.1
            have hszgs : sizeOf gs < n := by
              have hlt : sizeOf gs < sizeOf ((key, QueryVal.obj gs) :: rest) := by
                simp
                omega
              omega
            have hF := (ih (sizeOf gs) hszgs).2.1 gs (le_refl _) hgfv
            rw [serializeEntries_field_obj key hlog gs rest [] c, mergeInto_append]
            have hhead_merge : mergeInto (.obj ts)
                (if anyOperatorKey gs then serializeOps gs key [] c
                 else serializeEntries gs ([] ++ [key]) c).1
                = .obj (ts ++ [(key, .obj gs)]) := by
              simp only [mergeInto]
              rw [hF.1 key [] c]
              simp only [List.nil_append]
              rw [map_buildNested_single key (leafObjs gs),
                foldl_deepMerge_eq_chainFold ((leafObjs gs).map fun o => QueryVal.obj [(key, o)])
                  ts (by
                    intro o hmem
                    obtain ⟨o', ho', rfl⟩ := List.mem_map.mp hmem
                    rfl),
                chainFold_group (leafObjs gs) key ts (leafObjs_ne gs hgfv),
                getProp_not_mem ts key hkeynotin, hF.2,
                setPair_not_mem ts key _ hkeynotin]
            rw [hhead_merge]
            exact htail _
    · -- field values: serialized leaves deserialize to nested singleton objects,
      -- and folding the leaf chain rebuilds the field value
      intro fs hsz hgfv
      have hgv := hgfv
      rw [goodFieldValue_obj] at hgv
      simp only [Bool.and_eq_true, Bool.or_eq_true] at hgv
      obtain ⟨⟨hne0, hnodup0⟩, hbranch⟩ := hgv
      have hfsne : fs ≠ [] := by
        intro hcon
        subst hcon
        simp at hne0
      rcases hbranch with (hcomp | hemb) | hnested
      · have hops := goodComp_all_op fs hcomp
        have hanyop := anyOperatorKey_of_ops fs hfsne hops
        have hbodies : ∀ kv ∈ fs, isEmbeddedOperator kv.1 = true →
            ∀ c', mergeInto (.obj []) (serializeObject kv.2 [] c').1 = kv.2
              ∧ isNotEmpty kv.2 = true := by
          intro kv hkv hembkv
          have hne := comp_not_emb kv.1 (goodComp_mem fs hcomp kv hkv)
          rw [hne] at hembkv
          cases hembkv
        constructor
        · intro key p c
          rw [if_pos hanyop]
          exact ops_deserialize fs key p c hops hbodies
        · rw [leafObjs_ops fs hops]
          cases fs with
          | nil => exact absurd rfl hfsne
          | cons kv rest2 =>
            obtain ⟨h0, x0⟩ := kv
            simp only [List.map_cons]
            rw [chainFold_undef_obj_head h0 x0 _]
            have hflat := chainFold_flat ((h0, x0) :: rest2) [] hnodup0 (by simp)
            simp only [List.map_cons] at hflat
            simpa using hflat
      · have hops := goodEmb_all_op fs hemb
        have hanyop := anyOperatorKey_of_ops fs hfsne hops
        have hbodies : ∀ kv ∈ fs, isEmbeddedOperator kv.1 = true →
            ∀ c', mergeInto (.obj []) (serializeObject kv.2 [] c').1 = kv.2
              ∧ isNotEmpty kv.2 = true := by
          intro kv hkv hembkv c'
          have hszkv : sizeOf kv.2 < n := by
            have h1 := List.sizeOf_lt_of_mem hkv
            have h2 : sizeOf kv.2 < sizeOf kv := by
              obtain ⟨a, b⟩ := kv
              simp
            omega
          exact htop kv.2 hszkv (goodEmb_mem fs hemb kv hkv).2 c'
        constructor
        · intro key p c
          rw [if_pos hanyop]
          exact ops_deserialize fs key p c hops hbodies
        · rw [leafObjs_ops fs hops]
          cases fs with
          | nil => exact absurd rfl hfsne
          | cons kv rest2 =>
            obtain ⟨h0, x0⟩ := kv
            simp only [List.map_cons]
            rw [chainFold_undef_obj_head h0 x0 _]
            have hflat := chainFold_flat ((h0, x0) :: rest2) [] hnodup0 (by simp)
            simp only [List.map_cons] at hflat
            simpa using hflat
      · have hanyop := anyOperatorKey_nested_false fs hnested
        have hmembers : ∀ k v, (k, v) ∈ fs → ∃ gs, v = QueryVal.obj gs ∧
            (∀ (key' : String) (p' : List String) (c' : Nat),
              (deserializeList (if anyOperatorKey gs then serializeOps gs key' p' c'
                  else serializeEntries gs (p' ++ [key']) c').1).filter isNotEmpty
                = (leafObjs gs).map (buildNestedObject (p' ++ [key'])))
            ∧ chainFold .undef (leafObjs gs) = .obj gs ∧ leafObjs gs ≠ [] := by
          intro k v hkv
          obtain ⟨hopk, hgvm⟩ := goodNested_mem fs hnested (k, v) hkv
          obtain ⟨gs, hveq⟩ := goodFieldValue_is_obj v hgvm
          subst hveq
          have hszgs : sizeOf gs < n := by
            have h1 := List.sizeOf_lt_of_mem hkv
            have h2 : sizeOf gs < sizeOf (k, QueryVal.obj gs) := by
              simp
              omega
            omega
          have hFm := (ih (sizeOf gs) hszgs).2.1 gs (le_refl _) hgvm
          exact ⟨gs, rfl, hFm.1, hFm.2, leafObjs_ne gs hgvm⟩
        constructor
        · intro key p c
          rw [if_neg (by simp [hanyop])]
          exact nested_serialize fs (p ++ [key]) c hnested (fun k v hkv => by
            obtain ⟨gs, hveq, hF1m, _, _⟩ := hmembers k v hkv
            exact ⟨gs, hveq, hF1m⟩)
        · obtain ⟨h0, x0, tail0, hleaf⟩ := leafObjs_head fs hgfv
          rw [hleaf, chainFold_undef_obj_head h0 x0 tail0, ← hleaf]
          have hnf := nest_fold fs [] hnested hnodup0 (by simp) (fun k v hkv => by
            obtain ⟨gs, hveq, _, hF2m, hnem⟩ := hmembers k v hkv
            exact ⟨gs, hveq, hF2m, hnem⟩)
          simpa using hnf
    · -- a good singleton round-trips to itself through one serialized group
      intro e hsz c hsingleton
      obtain ⟨key, value, rfl⟩ := goodSingleton_shape e hsingleton
      rw [goodSingleton_single] at hsingleton
      rw [serializeObject_obj]
      by_cases h1 : (key == "$and" || key == "$or") = true
      · rw [if_pos h1] at hsingleton
        cases value with
        | num m => simp at hsingleton
        | str s => simp at hsingleton
        | bool b => simp at hsingleton
        | null => simp at hsingleton
        | undef => simp at hsingleton
        | obj fs2 => simp at hsingleton
        | arr items =>
          simp only [Bool.and_eq_true] at hsingleton
          have hkey : key = "$and" ∨ key = "$or" := by simpa using h1
          have hnotkey : (key == "$not") = false := by
            rcases hkey with rfl | rfl <;> rfl
          have hszitems : sizeOf items < n := by
            have hlt : sizeOf items < sizeOf (QueryVal.obj [(key, QueryVal.arr items)]) := by
              simp
              omega
            omega
          have hitems := (ih (sizeOf items) hszitems).2.2.2 items (le_refl _) c hsingleton.2
          have hnode : deserializeNode (Node.logical (serializeList items [] c).2 key
              (serializeList items [] c).1) = .obj [(key, .arr items)] := by
            rw [deserializeNode_logical, if_neg (by simp [hnotkey]),
              if_pos (by rw [hitems]; exact hsingleton.1), hitems]
          rw [serializeEntries_and_or key hkey items [] [] c]
          simp only [serializeEntries_nil]
          rw [deserializeList_cons, deserializeList_nil, hnode, List.filter_cons,
            if_pos (by rfl)]
          simp
      · rw [if_neg h1] at hsingleton
        by_cases h2 : (key == "$not") = true
        · rw [if_pos h2] at hsingleton
          have hkey : key = "$not" := by simpa using h2
          subst hkey
          have hszval : sizeOf value < n := by
            have hlt : sizeOf value < sizeOf (QueryVal.obj [("$not", value)]) := by
              simp
              omega
            omega
          have hbody := htop value hszval hsingleton c
          have hnode : deserializeNode (Node.logical (serializeObject value [] c).2 "$not"
              (serializeObject value [] c).1) = .obj [("$not", value)] := by
            rw [deserializeNode_logical,
              if_pos (by rfl : (("$not" : String) == "$not") = true),
              mergeObjects_filter, hbody.1, if_pos hbody.2]
          rw [serializeEntries_not value [] [] c]
          simp only [serializeEntries_nil]
          rw [deserializeList_cons, deserializeList_nil, hnode, List.filter_cons,
            if_pos (by rfl)]
          simp
        · rw [if_neg h2] at hsingleton
          simp only [Bool.and_eq_true, Bool.not_eq_true'] at hsingleton
          obtain ⟨hopk, hchain⟩ := hsingleton
          obtain ⟨op, w, hveq⟩ := singleChain_shape value hchain
          subst hveq
          have hlog : isLogicalOperator key = false := by
            simp only [isOperatorKey, Bool.or_eq_false_iff] at hopk
            exact hopk.1.1
          have hgood : goodFieldValue (.obj [(op, w)]) = true :=
            singleChain_good (sizeOf (QueryVal.obj [(op, w)])) _ (le_refl _) hchain
          have hszgs : sizeOf ([(op, w)] : List (String × QueryVal)) < n := by
            have hlt : sizeOf ([(op, w)] : List (String × QueryVal)) <
                sizeOf (QueryVal.obj [(key, QueryVal.obj [(op, w)])]) := by
              simp
              omega
            omega
          have hF1 := ((ih _ hszgs).2.1 [(op, w)] (le_refl _) hgood).1 key [] c
          rw [serializeEntries_field_obj key hlog [(op, w)] [] [] c]
          simp only [serializeEntries_nil]
          rw [List.append_nil, hF1,
            singleChain_leaf (sizeOf ([(op, w)] : List (String × QueryVal))) [(op, w)]
              (le_refl _) hchain]
          rfl
    · -- a good singleton list round-trips elementwise
      intro items
      induction items with
      | nil =>
        intro _ c _
        simp [serializeList_nil, deserializeList_nil]
      | cons e rest ihInner =>
        intro hsz c hgoods
        rw [goodSingletons_cons] at hgoods
        simp only [Bool.and_eq_true] at hgoods
        have hslt : sizeOf e < n := by
          have hlt : sizeOf e < sizeOf (e :: rest) := by
            simp
            omega
          omega
        have hszrest : sizeOf rest ≤ n := by
          have hlt : sizeOf rest < sizeOf (e :: rest) := by simp
          omega
        rw [serializeList_cons, deserializeList_append, List.filter_append,
          (ih (sizeOf e) hslt).2.2.1 e (le_refl _) c hgoods.1,
          ihInner hszrest _ hgoods.2]
        rfl

/-- C1 (amended): the round trip `deserialize(serialize(q))` returns the original
condition object exactly, provided `q` is built from the documented grammar with
no semantically-empty branches and, in addition, every element of a `$and`/`$or`
array is a single-key object that expands to exactly one AST node (a `$and`/`$or`
element, a `$not` body reached inside it, or a single-operator-chain field; the
counterexample shows a two-key element is split into two elements on the way
back, so the extra restriction is necessary). -/
theorem roundtrip_restricted (Q : QueryVal) (c : Nat) (h : goodQuery Q = true) :
    deserialize (serialize Q c).1 = some Q := by
  obtain ⟨gf, rfl, hne, hnodup, hentries⟩ := goodQuery_parts Q h
  have hmerge := (roundtrip_aux (sizeOf gf)).1 gf (le_refl _) c [] hentries hnodup (by simp)
  simp only [List.nil_append] at hmerge
  have hnem : isNotEmpty (QueryVal.obj gf) = true := by
    cases gf with
    | nil => exact absurd rfl hne
    | cons a b => rfl
  simp only [serialize, serializeObject_obj, deserialize, deserializeNodes_eq_mergeInto,
    hmerge, hnem, if_true]

theorem roundtrip_restricted_witness :
    goodQuery (.obj [("$and", .arr [.obj [("a", .obj [("$eq", .num 1)])]]),
                     ("b", .obj [("$gt", .num 2)])]) = true
    ∧ deserialize (serialize (.obj [("$and", .arr [.obj [("a", .obj [("$eq", .num 1)])]]),
                     ("b", .obj [("$gt", .num 2)])]) 0).1
        = some (.obj [("$and", .arr [.obj [("a", .obj [("$eq", .num 1)])]]),
                     ("b", .obj [("$gt", .num 2)])]) :=
  ⟨rfl, roundtrip_restricted _ 0 rfl⟩
